import Mathlib

/-!
# httpt client: statistics aggregator, monitor, worker and dispatcher

A shallow embedding of `client/main.go`.

* Go `error` values are `Option String`: `none` is `nil`, `some msg` a
  non-nil error carrying its message.
* `time.Duration` and `time.Time` are `Int` (nanoseconds); `int` is `Int`.
* `[]byte` is `List Nat`, `http.Header` an association list.
* The package-level flag variables (`reportStats`, `times`, `wait`,
  `timeout`, ...) are explicit arguments.
* Logging calls (`worker.Debugf`, `worker.Errorf`, `worker.Print`) write to
  the log only and are left out.
-/

namespace Httpt

/-! ## Data model -/

/-- Go `error`: `none` is `nil`. -/
abbrev GoError := Option String

/-- Go `time.Duration`, a signed count of nanoseconds. -/
abbrev Duration := Int

/-- Go `http.Header`. -/
abbrev Header := List (String × List String)

/-- The `Response` struct of `client/main.go`. -/
structure Response where
  Status : Int
  Header : Header
  Data : List Nat
  Error : GoError
deriving DecidableEq, Repr

/-- The `Result` struct of `client/main.go`; `Response` is a pointer, `none`
is the nil pointer. -/
structure Result where
  Start : Int
  Duration : Duration
  Response : Option Response
  Error : GoError
deriving DecidableEq, Repr

/-- The `Stats` struct of `client/main.go` without its embedded mutex: every
method below takes the lock on entry and releases it on return, so a call
that runs alone leaves the mutex as it found it. The mutex itself is modelled
in the interleaving semantics further down. -/
structure Stats where
  failedRequests : List GoError
  failedRequestDurations : List Duration
  failedResponseReads : List GoError
  failedResponseReadDurations : List Duration
  successDurations : List Duration
deriving DecidableEq, Repr

/-- The zero value `var stats Stats` of `monitorWorkers`. -/
def Stats.empty : Stats := ⟨[], [], [], [], []⟩

/-! ## Recording operations -/

/-- `func (s *Stats) ReportFailedRequest(err error, duration time.Duration)`. -/
def Stats.ReportFailedRequest (reportStats : Bool) (s : Stats) (err : GoError)
    (duration : Duration) : Stats :=
  if reportStats then
    let s1 := { s with failedRequests := s.failedRequests ++ [err] }
    { s1 with failedRequestDurations := s1.failedRequestDurations ++ [duration] }
  else s

/-- `func (s *Stats) ReportFailedResponseRead(err error, duration time.Duration)`. -/
def Stats.ReportFailedResponseRead (reportStats : Bool) (s : Stats) (err : GoError)
    (duration : Duration) : Stats :=
  if reportStats then
    let s1 := { s with failedResponseReads := s.failedResponseReads ++ [err] }
    { s1 with failedResponseReadDurations := s1.failedResponseReadDurations ++ [duration] }
  else s

/-- `func (s *Stats) ReportSuccess(duration time.Duration)`. -/
def Stats.ReportSuccess (reportStats : Bool) (s : Stats) (duration : Duration) : Stats :=
  if reportStats then
    { s with successDurations := s.successDurations ++ [duration] }
  else s

/-! ## Monitor -/

/-- One iteration of the `for result := range worker.Out` loop of
`monitorWorker`. `none` is the nil-pointer panic of `response.Status` when
`result.Error == nil` and `result.Response == nil`. -/
def monitorStep (reportStats : Bool) (stats : Stats) (result : Result) : Option Stats :=
  if result.Error ≠ none then
    some (stats.ReportFailedRequest reportStats result.Error result.Duration)
  else
    match result.Response with
    | none => none
    | some response =>
      if response.Error ≠ none then
        some (stats.ReportFailedResponseRead reportStats response.Error result.Duration)
      else
        some (stats.ReportSuccess reportStats result.Duration)

/-- `monitorWorker`: drains the channel `worker.Out`, given as the list of
Results the worker sends before closing it. -/
def monitorWorker (reportStats : Bool) : Stats → List Result → Option Stats
  | stats, [] => some stats
  | stats, result :: rest =>
    match monitorStep reportStats stats result with
    | none => none
    | some stats1 => monitorWorker reportStats stats1 rest

/-- A Result is a failed request when `Error != nil`. -/
def Result.isFailedRequest (r : Result) : Bool := r.Error ≠ none

/-- A Result is a failed response read when `Error == nil` and
`Response.Error != nil`. -/
def Result.isFailedResponseRead (r : Result) : Bool :=
  r.Error = none &&
    match r.Response with
    | some response => response.Error ≠ none
    | none => false

/-- The remaining Results: neither a failed request nor a failed response read. -/
def Result.isSuccess (r : Result) : Bool :=
  !r.isFailedRequest && !r.isFailedResponseRead

/-- A Result whose `Response` pointer can be dereferenced whenever
`Error == nil`, as is every Result built by `doRequest`. -/
def Result.WellFormed (r : Result) : Prop :=
  r.Error = none → r.Response ≠ none

instance (r : Result) : Decidable r.WellFormed := by
  unfold Result.WellFormed; infer_instance

/-- The error a failed response read records: `response.Error`. -/
def Result.readError (r : Result) : GoError :=
  match r.Response with
  | some response => response.Error
  | none => none

/-- One call of a recording method, with its arguments. -/
inductive RecordCall where
  | failedRequest (err : GoError) (duration : Duration)
  | failedResponseRead (err : GoError) (duration : Duration)
  | success (duration : Duration)
deriving DecidableEq, Repr

/-- Performs one recording call on `s`. -/
def Stats.record (reportStats : Bool) (s : Stats) : RecordCall → Stats
  | .failedRequest err d => s.ReportFailedRequest reportStats err d
  | .failedResponseRead err d => s.ReportFailedResponseRead reportStats err d
  | .success d => s.ReportSuccess reportStats d

/-- A successful Result as `doRequest` builds it for status 200 and body "ok". -/
def okResult (start : Int) (duration : Duration) : Result :=
  ⟨start, duration, some ⟨200, [], [111, 107], none⟩, none⟩

/-! ## Dispatcher -/

/-- The `*http.Response` that `client.Do` hands back when it succeeds, as far
as `doRequest` looks at it. `Body` is what `ioutil.ReadAll(res.Body)` returns:
the bytes read and the error that stopped the read (`none` at end of body). -/
structure HttpResponse where
  StatusCode : Int
  Header : Header
  Body : List Nat × GoError
deriving DecidableEq, Repr

/-- What `client.Do(req)` returns. By the contract of `net/http` a nil error
comes with a non-nil response whose body is non-nil; with a non-nil error the
response is not looked at by `doRequest`. -/
inductive DoOutcome where
  | failed (err : String)
  | ok (res : HttpResponse)
deriving DecidableEq, Repr

/-- Everything outside the program that one call of `doRequest` observes: the
clock reading `time.Now()` at its start, the value of `time.Since(start)` when
the Result is built, and what `client.Do` returns. -/
structure Attempt where
  now : Int
  since : Duration
  outcome : DoOutcome
deriving DecidableEq, Repr

/-- `func doRequest(client *http.Client, req *http.Request) *Result`. -/
def doRequest (a : Attempt) : Result :=
  let start := a.now
  let mkResult := fun (res : Option Response) (err : GoError) =>
    ({ Start := start, Duration := a.since, Response := res, Error := err } : Result)
  match a.outcome with
  | .failed err => mkResult none (some err)
  | .ok res =>
    let response : Response :=
      { Status := res.StatusCode, Header := res.Header, Data := res.Body.1, Error := res.Body.2 }
    mkResult (some response) none

/-! ## Worker -/

/-- What the goroutine started by `doRequests` does, in program order. -/
inductive WorkerEvent where
  | sleep (d : Duration)
  | send (r : Result)
  | close
deriving DecidableEq, Repr

/-- State of the goroutine of `doRequests`: the loop counter `i`, the number of
calls of `doRequest` made so far and the events so far. -/
structure WorkerState where
  i : Int
  calls : Nat
  trace : List WorkerEvent
deriving DecidableEq, Repr

/-- The loop `for i := 0; i < times; i++ { ... }; close(out)` of the goroutine
of `doRequests`. `env k` is what the `k`-th call of `doRequest` observes. A send
on `out` waits for room in the buffer and then succeeds; the monitor receives
until `out` is closed. Each iteration uses one unit of fuel. -/
def doRequestsLoop (env : Nat → Attempt) (wait : Duration) (times : Int) :
    Nat → WorkerState → Option WorkerState
  | fuel, st =>
    if st.i < times then
      match fuel with
      | 0 => none
      | fuel + 1 =>
        let slept := if st.i > 0 then st.trace ++ [WorkerEvent.sleep wait] else st.trace
        let result := doRequest (env st.calls)
        doRequestsLoop env wait times fuel
          { i := st.i + 1, calls := st.calls + 1, trace := slept ++ [WorkerEvent.send result] }
    else
      some { st with trace := st.trace ++ [WorkerEvent.close] }

/-- `func doRequests(client, req, times) <-chan *Result`: makes the channel with
capacity `monitorBuffer` (a negative capacity panics: `none`) and starts the
goroutine, whose run is returned. -/
def doRequests (monitorBuffer : Int) (env : Nat → Attempt) (wait : Duration) (times : Int)
    (fuel : Nat) : Option WorkerState :=
  if monitorBuffer < 0 then none
  else doRequestsLoop env wait times fuel { i := 0, calls := 0, trace := [] }

/-- The events of attempt number `k`: the sleep between attempts, not before
the first, then the send of the Result of that attempt. -/
def attemptEvents (env : Nat → Attempt) (wait : Duration) (k : Nat) : List WorkerEvent :=
  (if k > 0 then [WorkerEvent.sleep wait] else []) ++ [WorkerEvent.send (doRequest (env k))]

/-- The Results sent in a trace, in order. -/
def sentResults : List WorkerEvent → List Result
  | [] => []
  | .send r :: rest => r :: sentResults rest
  | _ :: rest => sentResults rest

/-- An environment in which `client.Do` fails on every odd attempt. -/
def flakyEnv (k : Nat) : Attempt :=
  if k % 2 = 1 then ⟨k, 1, .failed "connection refused"⟩
  else ⟨k, 1, .ok ⟨200, [], ([111, 107], none)⟩⟩

/-! ## Client construction -/

/-- The flags `getClient` reads. -/
structure ClientFlags where
  insecure : Bool
  disableKeepAlives : Bool
  clientKey : String
  clientCert : String
  timeout : Duration
deriving DecidableEq, Repr

/-- Go `tls.Config` as built by `getTLSClientConfig`; a certificate is the pair
of file contents it was parsed from. -/
structure TLSConfig where
  InsecureSkipVerify : Bool
  Certificates : List (List Nat × List Nat)
deriving DecidableEq, Repr

/-- Go `http.Transport` as built by `getTransportForClient`; durations in
nanoseconds. -/
structure Transport where
  DialTimeout : Duration
  DialKeepAlive : Duration
  TLSClientConfig : Option TLSConfig
  MaxIdleConns : Int
  IdleConnTimeout : Duration
  TLSHandshakeTimeout : Duration
  ExpectContinueTimeout : Duration
  DisableKeepAlives : Bool
deriving DecidableEq, Repr

/-- Go `http.Client`: a nil `Transport` is the default transport, `Timeout`
zero is no timeout. -/
structure Client where
  Transport : Option Transport
  Timeout : Duration
deriving DecidableEq, Repr

/-- Go `http.DefaultClient`, the zero `http.Client`. -/
def DefaultClient : Client := { Transport := none, Timeout := 0 }

/-- One second in nanoseconds: `time.Second`. -/
def Second : Duration := 1000000000

/-- `func needsCustomTLSConfig() bool`. -/
def needsCustomTLSConfig (f : ClientFlags) : Bool :=
  f.insecure || f.clientKey ≠ "" || f.clientCert ≠ ""

/-- `func needsCustomTransport() bool`. -/
def needsCustomTransport (f : ClientFlags) : Bool :=
  f.disableKeepAlives || needsCustomTLSConfig f

/-- `func needsCustomClient() bool`. -/
def needsCustomClient (f : ClientFlags) : Bool :=
  f.timeout ≠ 0 || needsCustomTLSConfig f

/-- `func getTLSClientConfig() (*tls.Config, error)`. `readFile` is
`ioutil.ReadFile`, `keyPair` is `tls.X509KeyPair`. -/
def getTLSClientConfig (readFile : String → Except String (List Nat))
    (keyPair : List Nat → List Nat → Except String (List Nat × List Nat))
    (f : ClientFlags) : Except String (Option TLSConfig) :=
  if !needsCustomTLSConfig f then .ok none
  else
    let certificates : Except String (List (List Nat × List Nat)) :=
      if f.clientKey ≠ "" ∧ f.clientCert ≠ "" then
        match readFile f.clientKey with
        | .error err => .error err
        | .ok clientKeyData =>
          match readFile f.clientCert with
          | .error err => .error err
          | .ok clientCertData =>
            match keyPair clientCertData clientKeyData with
            | .error err => .error err
            | .ok pair => .ok [pair]
      else .ok []
    match certificates with
    | .error err => .error err
    | .ok certs => .ok (some { InsecureSkipVerify := f.insecure, Certificates := certs })

/-- `func getTransportForClient() (http.RoundTripper, error)`. -/
def getTransportForClient (readFile : String → Except String (List Nat))
    (keyPair : List Nat → List Nat → Except String (List Nat × List Nat))
    (f : ClientFlags) : Except String (Option Transport) :=
  if needsCustomTransport f then .ok none
  else
    match getTLSClientConfig readFile keyPair f with
    | .error err => .error err
    | .ok tlsConfig =>
      .ok (some
        { DialTimeout := 30 * Second
          DialKeepAlive := 30 * Second
          TLSClientConfig := tlsConfig
          MaxIdleConns := 100
          IdleConnTimeout := 90 * Second
          TLSHandshakeTimeout := 10 * Second
          ExpectContinueTimeout := 1 * Second
          DisableKeepAlives := f.disableKeepAlives })

/-- `func getClient() (*http.Client, error)`. -/
def getClient (readFile : String → Except String (List Nat))
    (keyPair : List Nat → List Nat → Except String (List Nat × List Nat))
    (f : ClientFlags) : Except String Client :=
  if needsCustomClient f then .ok DefaultClient
  else
    match getTransportForClient readFile keyPair f with
    | .error err => .error err
    | .ok transport => .ok { Transport := transport, Timeout := f.timeout }

/-- The flags after `-timeout 5s`, all others at their defaults. -/
def timeoutFiveSeconds : ClientFlags :=
  { insecure := false, disableKeepAlives := false, clientKey := "", clientCert := "",
    timeout := 5 * Second }

/-! ## Monitors running concurrently on one Stats

`monitorWorkers` starts one goroutine per worker, all on the same `Stats`. The
goroutines are interleaved statement by statement: taking the mutex, each read
of a slice, each assignment to a slice and releasing the mutex are separate
steps, and a scheduler picks which goroutine makes the next step. -/

/-- The recording call `monitorWorker` makes for a Result; `none` is the
nil-pointer panic (see `monitorStep`). -/
def classify (result : Result) : Option RecordCall :=
  if result.Error ≠ none then
    some (.failedRequest result.Error result.Duration)
  else
    match result.Response with
    | none => none
    | some response =>
      if response.Error ≠ none then
        some (.failedResponseRead response.Error result.Duration)
      else
        some (.success result.Duration)

/-- Where a monitor goroutine stands.
* `recv`: at the head of `for result := range worker.Out`;
* `lock c`: in the recording method for `c`, past `if reportStats`, at `s.Lock()`;
* `frAppendErr`, `frStoreErr`, `frAppendDur`, `frStoreDur`: in
  `ReportFailedRequest`, before evaluating `append(s.failedRequests, err)`,
  before assigning its value `v` to `s.failedRequests`, and the same two points
  for `s.failedRequestDurations`;
* `rrAppendErr`, ...: the same points in `ReportFailedResponseRead`;
* `okAppend`, `okStore`: the two points in `ReportSuccess`;
* `unlock`: at the deferred `s.Unlock()`;
* `exited`: the channel was closed and drained, `wg.Done()` has run. -/
inductive MonitorPC where
  | recv
  | lock (c : RecordCall)
  | frAppendErr (err : GoError) (duration : Duration)
  | frStoreErr (v : List GoError) (duration : Duration)
  | frAppendDur (duration : Duration)
  | frStoreDur (v : List Duration)
  | rrAppendErr (err : GoError) (duration : Duration)
  | rrStoreErr (v : List GoError) (duration : Duration)
  | rrAppendDur (duration : Duration)
  | rrStoreDur (v : List Duration)
  | okAppend (duration : Duration)
  | okStore (v : List Duration)
  | unlock
  | exited
deriving DecidableEq, Repr

/-- A monitor goroutine: the Results its worker's channel still delivers before
it is closed, and where the goroutine stands. -/
structure Monitor where
  pending : List Result
  pc : MonitorPC
deriving DecidableEq, Repr

/-- The shared state of `monitorWorkers`: the mutex embedded in `Stats`, the
lists of `Stats`, and the monitor goroutines. -/
structure MonitorSystem where
  locked : Bool
  stats : Stats
  monitors : List Monitor
deriving DecidableEq, Repr

/-- The first statement after `s.Lock()` in the method for `c`. -/
def afterLock : RecordCall → MonitorPC
  | .failedRequest err d => .frAppendErr err d
  | .failedResponseRead err d => .rrAppendErr err d
  | .success d => .okAppend d

/-- One step of one monitor goroutine on the shared mutex and Stats. `none`:
the goroutine cannot step (it waits for the mutex or has exited) or it panics
(nil Response, unlock of an unlocked mutex). -/
def stepMonitor (reportStats : Bool) (locked : Bool) (stats : Stats) (m : Monitor) :
    Option (Bool × Stats × Monitor) :=
  match m.pc with
  | .recv =>
    match m.pending with
    | [] => some (locked, stats, { m with pc := .exited })
    | result :: rest =>
      match classify result with
      | none => none
      | some c =>
        if reportStats then some (locked, stats, { pending := rest, pc := .lock c })
        else some (locked, stats, { pending := rest, pc := .recv })
  | .lock c =>
    if locked then none else some (true, stats, { m with pc := afterLock c })
  | .frAppendErr err d =>
    some (locked, stats, { m with pc := .frStoreErr (stats.failedRequests ++ [err]) d })
  | .frStoreErr v d =>
    some (locked, { stats with failedRequests := v }, { m with pc := .frAppendDur d })
  | .frAppendDur d =>
    some (locked, stats, { m with pc := .frStoreDur (stats.failedRequestDurations ++ [d]) })
  | .frStoreDur v =>
    some (locked, { stats with failedRequestDurations := v }, { m with pc := .unlock })
  | .rrAppendErr err d =>
    some (locked, stats, { m with pc := .rrStoreErr (stats.failedResponseReads ++ [err]) d })
  | .rrStoreErr v d =>
    some (locked, { stats with failedResponseReads := v }, { m with pc := .rrAppendDur d })
  | .rrAppendDur d =>
    some (locked, stats, { m with pc := .rrStoreDur (stats.failedResponseReadDurations ++ [d]) })
  | .rrStoreDur v =>
    some (locked, { stats with failedResponseReadDurations := v }, { m with pc := .unlock })
  | .okAppend d =>
    some (locked, stats, { m with pc := .okStore (stats.successDurations ++ [d]) })
  | .okStore v =>
    some (locked, { stats with successDurations := v }, { m with pc := .unlock })
  | .unlock =>
    if locked then some (false, stats, { m with pc := .recv }) else none
  | .exited => none

/-- The scheduler lets goroutine number `i` make its next step. -/
def MonitorSystem.step (reportStats : Bool) (i : Nat) (σ : MonitorSystem) :
    Option MonitorSystem :=
  match σ.monitors[i]? with
  | none => none
  | some m =>
    match stepMonitor reportStats σ.locked σ.stats m with
    | none => none
    | some (locked, stats, m1) =>
      some { locked := locked, stats := stats, monitors := σ.monitors.set i m1 }

/-- Runs a schedule: the list of goroutine numbers in the order they step. -/
def MonitorSystem.run (reportStats : Bool) : List Nat → MonitorSystem → Option MonitorSystem
  | [], σ => some σ
  | i :: rest, σ =>
    match σ.step reportStats i with
    | none => none
    | some σ1 => MonitorSystem.run reportStats rest σ1

/-- The state `monitorWorkers` starts from: the zero `Stats`, its mutex free,
one monitor per worker with the Results that worker will send. -/
def MonitorSystem.init (queues : List (List Result)) : MonitorSystem :=
  { locked := false, stats := Stats.empty,
    monitors := queues.map fun q => { pending := q, pc := .recv } }

/-- `wg.Wait()` returns: every monitor goroutine has exited. -/
def MonitorSystem.allExited (σ : MonitorSystem) : Bool :=
  σ.monitors.all fun m => m.pc = .exited

/-- The number of entries over the three categories, as `printStats` counts
them. -/
def Stats.entries (s : Stats) : Nat :=
  s.failedRequests.length + s.failedResponseReads.length + s.successDurations.length

/-- Whether the goroutine holds the mutex. -/
def Monitor.crit (m : Monitor) : Nat :=
  match m.pc with
  | .recv | .lock _ | .exited => 0
  | _ => 1

/-- The entries the goroutine has still to add: one per pending Result and one
for a call that has not yet stored its first list. -/
def Monitor.owed (m : Monitor) : Nat :=
  m.pending.length +
    match m.pc with
    | .lock _ | .frAppendErr _ _ | .frStoreErr _ _ | .rrAppendErr _ _ | .rrStoreErr _ _
    | .okAppend _ | .okStore _ => 1
    | _ => 0

/-- The goroutine has stored the error of a failed request and not yet its
duration. -/
def Monitor.lagFR (m : Monitor) : Nat :=
  match m.pc with
  | .frAppendDur _ | .frStoreDur _ => 1
  | _ => 0

/-- The goroutine has stored the error of a failed response read and not yet
its duration. -/
def Monitor.lagRR (m : Monitor) : Nat :=
  match m.pc with
  | .rrAppendDur _ | .rrStoreDur _ => 1
  | _ => 0

/-- A slice value computed by the goroutine and not yet assigned extends the
current list by one element. -/
def Monitor.fresh (m : Monitor) (s : Stats) : Prop :=
  match m.pc with
  | .frStoreErr v _ => v.length = s.failedRequests.length + 1
  | .frStoreDur v => v.length = s.failedRequestDurations.length + 1
  | .rrStoreErr v _ => v.length = s.failedResponseReads.length + 1
  | .rrStoreDur v => v.length = s.failedResponseReadDurations.length + 1
  | .okStore v => v.length = s.successDurations.length + 1
  | _ => True

/-- The invariant of the interleaved monitors for a run that records `n`
Results in all: the mutex is held by exactly the goroutines inside a
recording method (at most one), no update is lost, each duration list lags its
error list by the call in flight, a computed slice is fresh, and a goroutine
exits only with its channel drained. -/
structure MonitorSystem.Inv (n : Nat) (σ : MonitorSystem) : Prop where
  mutex : (σ.monitors.map Monitor.crit).sum = if σ.locked then 1 else 0
  total : σ.stats.entries + (σ.monitors.map Monitor.owed).sum = n
  lagFR : σ.stats.failedRequests.length =
    σ.stats.failedRequestDurations.length + (σ.monitors.map Monitor.lagFR).sum
  lagRR : σ.stats.failedResponseReads.length =
    σ.stats.failedResponseReadDurations.length + (σ.monitors.map Monitor.lagRR).sum
  fresh : ∀ m ∈ σ.monitors, m.fresh σ.stats
  drained : ∀ m ∈ σ.monitors, m.pc = .exited → m.pending = []

/-- An upper bound on the steps the goroutine can still make: eight per
pending Result and the steps left in the call in flight. -/
def Monitor.stepsLeft (m : Monitor) : Nat :=
  8 * m.pending.length +
    match m.pc with
    | .exited => 0
    | .recv => 1
    | .unlock => 2
    | .frStoreDur _ | .rrStoreDur _ | .okStore _ => 3
    | .frAppendDur _ | .rrAppendDur _ | .okAppend _ => 4
    | .frStoreErr _ _ | .rrStoreErr _ _ => 5
    | .frAppendErr _ _ | .rrAppendErr _ _ => 6
    | .lock _ => 7

/-- An upper bound on the steps the monitors can still make together. -/
def MonitorSystem.stepsLeft (σ : MonitorSystem) : Nat :=
  (σ.monitors.map Monitor.stepsLeft).sum

/-- No pending Result makes `monitorWorker` panic. -/
def MonitorSystem.Classifiable (σ : MonitorSystem) : Prop :=
  ∀ m ∈ σ.monitors, ∀ r ∈ m.pending, classify r ≠ none

/-- Two workers, three Results each: one successful worker and one whose second
request fails and whose third response cannot be read. -/
def twoQueues : List (List Result) :=
  [[okResult 0 5, okResult 1 5, okResult 2 5],
   [okResult 0 4, ⟨1, 9, none, some "timeout"⟩,
    ⟨2, 6, some ⟨200, [], [111], some "unexpected EOF"⟩, none⟩]]

/-- A schedule for `twoQueues` in which each goroutine receives its next Result
while the other is inside a recording method, and waits for the mutex the
other holds. -/
def twoSchedule : List Nat :=
  [1, 0, 1, 1, 1, 1, 0, 1, 0, 0, 0, 1, 0, 1, 1, 1, 1, 1, 0, 0, 1, 0, 0, 1, 1, 0, 1, 1, 1, 1,
   0, 1, 0, 0, 0, 0]

/-! ## float64 arithmetic and MeanDuration

`MeanDuration` divides in `float64`. A finite `float64` is kept as its exact
value, a sign and a dyadic magnitude; conversions and division round to the
nearest value with a 53-bit significand, ties to even, as IEEE 754 binary64
does. The exponent range is not modelled: every value `MeanDuration` forms is
zero or has a magnitude between `2^-63` and `2^63`, inside the normal range. -/

/-- A finite `float64`, by value: `mant * 2^up / 2^down`, negated if `neg`. -/
structure F64 where
  neg : Bool
  mant : Nat
  up : Nat
  down : Nat
deriving DecidableEq, Repr

/-- Rounds `num / den` to the nearest natural number, ties to even. -/
def roundHalfEven (num den : Nat) : Nat :=
  let q := num / den
  let r := num % den
  if 2 * r < den then q
  else if den < 2 * r then q + 1
  else if q % 2 = 0 then q
  else q + 1

/-- Halves `n` until it is below 2 and counts the halvings; `fuel` bounds the
number of halvings. -/
def log2Aux : Nat → Nat → Nat
  | 0, _ => 0
  | fuel + 1, n => if n < 2 then 0 else log2Aux fuel (n / 2) + 1

/-- The position of the leading bit of `n`: `⌊log₂ n⌋` for `n > 0`. -/
def floorLog2 (n : Nat) : Nat :=
  log2Aux n n

/-- Whether `num / den` lies below `2^(a-b)`, for `a = ⌊log₂ num⌋` and
`b = ⌊log₂ den⌋`: then its binade starts at `2^(a-b-1)`, else at `2^(a-b)`. -/
def binadeShift (num den : Nat) : Nat :=
  if den * 2 ^ floorLog2 num ≤ num * 2 ^ floorLog2 den then 0 else 1

/-- The `float64` nearest to `num / den` (negated if `neg`), ties to even, for
`den > 0`. With `a = ⌊log₂ num⌋`, `b = ⌊log₂ den⌋` and `t = binadeShift num den`
the quotient lies in `[2^(a-b-t), 2^(a-b-t+1))`; scaled by `2^(52+b+t-a)` it
lies in `[2^52, 2^53)` and is rounded to an integer significand. -/
def roundToF64 (neg : Bool) (num den : Nat) : F64 :=
  if num = 0 then { neg := neg, mant := 0, up := 0, down := 0 }
  else
    let a := floorLog2 num
    let b := floorLog2 den
    let t := binadeShift num den
    { neg := neg
      mant := roundHalfEven (num * 2 ^ (b + t + 52)) (den * 2 ^ a)
      up := a
      down := b + t + 52 }

/-- Go conversion `float64(z)` of an integer. -/
def float64OfInt (z : Int) : F64 :=
  roundToF64 (decide (z < 0)) z.natAbs 1

/-- Go `x / y` on `float64`. `none` for a zero divisor, whose quotient is an
infinity or NaN. -/
def float64Div (x y : F64) : Option F64 :=
  if y.mant = 0 then none
  else some (roundToF64 (x.neg != y.neg) (x.mant * 2 ^ x.up * 2 ^ y.down)
    (y.mant * 2 ^ y.up * 2 ^ x.down))

/-- Go conversion `int64(x)` of a `float64`, here to `time.Duration`: the
fraction is discarded (truncation toward zero). `none` when the truncated
value is not an `int64`; the Go specification leaves the result of such a
conversion to the implementation. -/
def float64ToInt64 (x : F64) : Option Int :=
  let mag : Int := ((x.mant * 2 ^ x.up / 2 ^ x.down : Nat) : Int)
  let v : Int := if x.neg then -mag else mag
  if -2 ^ 63 ≤ v ∧ v < 2 ^ 63 then some v else none

/-- Two's complement wrap-around of `int64` arithmetic. -/
def wrap64 (z : Int) : Int :=
  (z + 2 ^ 63) % 2 ^ 64 - 2 ^ 63

/-- The loop `for _, duration := range durations { sum += duration }`. -/
def sumDurations : Int → List Int → Int
  | sum, [] => sum
  | sum, duration :: rest => sumDurations (wrap64 (sum + duration)) rest

/-- `func MeanDuration(durations []time.Duration) time.Duration`. `none` when
the final conversion to `time.Duration` is out of range. -/
def MeanDuration (durations : List Duration) : Option Duration :=
  if durations.length = 0 then some (-1)
  else
    let sum := sumDurations 0 durations
    match float64Div (float64OfInt sum) (float64OfInt (durations.length : Int)) with
    | none => none
    | some q => float64ToInt64 q

/-- The magnitude of a `float64` with its fraction discarded. -/
def F64.truncMag (x : F64) : Nat :=
  x.mant * 2 ^ x.up / 2 ^ x.down

/-! # Theorems -/

/-! ## Recording operations (C2, C3) -/

/-- C2: with recording enabled, each recording operation appends exactly one
entry at the end of each list of its own category and leaves every other list
as it was: `ReportSuccess` extends `successDurations` by `d`;
`ReportFailedRequest` extends `failedRequests` by `e` and
`failedRequestDurations` by `d`; `ReportFailedResponseRead` extends
`failedResponseReads` by `e` and `failedResponseReadDurations` by `d`. -/
theorem report_appends_own_category (s : Stats) (e : GoError) (d : Duration) :
    s.ReportSuccess true d =
        ⟨s.failedRequests, s.failedRequestDurations, s.failedResponseReads,
          s.failedResponseReadDurations, s.successDurations ++ [d]⟩ ∧
      s.ReportFailedRequest true e d =
        ⟨s.failedRequests ++ [e], s.failedRequestDurations ++ [d], s.failedResponseReads,
          s.failedResponseReadDurations, s.successDurations⟩ ∧
      s.ReportFailedResponseRead true e d =
        ⟨s.failedRequests, s.failedRequestDurations, s.failedResponseReads ++ [e],
          s.failedResponseReadDurations ++ [d], s.successDurations⟩ := by
  refine ⟨rfl, rfl, rfl⟩

/-- With recording disabled a recording call returns the Stats it was given. -/
theorem record_disabled (s : Stats) (c : RecordCall) : s.record false c = s := by
  cases c <;> rfl

/-- With recording disabled a sequence of recording calls returns the Stats it
started from. -/
theorem foldl_record_disabled (calls : List RecordCall) (s : Stats) :
    calls.foldl (Stats.record false) s = s := by
  induction calls generalizing s with
  | nil => rfl
  | cons c rest ih => rw [List.foldl_cons, record_disabled, ih]

/-- C3: with recording disabled, `ReportSuccess`, `ReportFailedRequest` and
`ReportFailedResponseRead` leave the Stats unchanged for every argument, and
after any sequence of recording calls on the empty Stats all five lists are
still empty. -/
theorem report_disabled_noop (s : Stats) (e : GoError) (d : Duration)
    (calls : List RecordCall) :
    s.ReportSuccess false d = s ∧
      s.ReportFailedRequest false e d = s ∧
      s.ReportFailedResponseRead false e d = s ∧
      calls.foldl (Stats.record false) Stats.empty = ⟨[], [], [], [], []⟩ := by
  refine ⟨rfl, rfl, rfl, ?_⟩
  rw [foldl_record_disabled]
  rfl

/-! ## Monitor (C1) -/

/-- What `monitorWorker` leaves in the Stats, for any starting Stats: each list
is extended by the matching Results, in arrival order. -/
theorem monitorWorker_spec (rs : List Result) (h : ∀ r ∈ rs, r.WellFormed) (s : Stats) :
    monitorWorker true s rs = some
      ⟨s.failedRequests ++ (rs.filter Result.isFailedRequest).map Result.Error,
        s.failedRequestDurations ++ (rs.filter Result.isFailedRequest).map Result.Duration,
        s.failedResponseReads ++ (rs.filter Result.isFailedResponseRead).map Result.readError,
        s.failedResponseReadDurations ++
          (rs.filter Result.isFailedResponseRead).map Result.Duration,
        s.successDurations ++ (rs.filter Result.isSuccess).map Result.Duration⟩ := by
  induction rs generalizing s with
  | nil => simp [monitorWorker]
  | cons r rest ih =>
    have hr : r.WellFormed := h r (List.mem_cons_self _ _)
    have hrest : ∀ x ∈ rest, x.WellFormed := fun x hx => h x (List.mem_cons_of_mem _ hx)
    obtain ⟨start, dur, resp, err⟩ := r
    cases err with
    | some msg =>
      simp [monitorWorker, monitorStep, ih hrest, Result.isFailedRequest,
        Result.isFailedResponseRead, Result.isSuccess, Stats.ReportFailedRequest]
    | none =>
      cases resp with
      | none => exact absurd rfl (hr rfl)
      | some response =>
        obtain ⟨st, hd, data, rerr⟩ := response
        cases rerr with
        | some msg =>
          simp [monitorWorker, monitorStep, ih hrest, Result.isFailedRequest,
            Result.isFailedResponseRead, Result.isSuccess, Stats.ReportFailedResponseRead,
            Result.readError]
        | none =>
          simp [monitorWorker, monitorStep, ih hrest, Result.isFailedRequest,
            Result.isFailedResponseRead, Result.isSuccess, Stats.ReportSuccess]

/-- Each Result is in exactly one of the three categories. -/
theorem countP_categories (rs : List Result) :
    rs.countP Result.isFailedRequest + rs.countP Result.isFailedResponseRead +
      rs.countP Result.isSuccess = rs.length := by
  induction rs with
  | nil => rfl
  | cons r rest ih =>
    simp only [List.countP_cons, List.length_cons]
    have : (if r.isFailedRequest = true then 1 else 0) +
        (if r.isFailedResponseRead = true then 1 else 0) +
        (if r.isSuccess = true then 1 else 0) = 1 := by
      obtain ⟨start, dur, resp, err⟩ := r
      cases err with
      | some msg => simp [Result.isFailedRequest, Result.isFailedResponseRead, Result.isSuccess]
      | none =>
        cases hb : (match resp with
          | some response => !decide (response.Error = none)
          | none => false) <;>
        simp [Result.isFailedRequest, Result.isFailedResponseRead, Result.isSuccess, hb]
    omega

/-- C1: with recording enabled and starting from the empty Stats,
`monitorWorker` drains any finite sequence of Results (each with a Response
present when its Error is nil) and returns; the number of failed-request
entries is the number of Results with `Error != nil`, the number of
failed-response-read entries is the number of Results with `Error == nil` and
`Response.Error != nil`, the number of success entries is the number of
remaining Results, and the three counts sum to the number of Results. If all
Results are successes the counts are n, 0 and 0. -/
theorem monitorWorker_classifies (rs : List Result) (h : ∀ r ∈ rs, r.WellFormed) :
    ∃ s, monitorWorker true Stats.empty rs = some s ∧
      s.failedRequests.length = rs.countP Result.isFailedRequest ∧
      s.failedResponseReads.length = rs.countP Result.isFailedResponseRead ∧
      s.successDurations.length = rs.countP Result.isSuccess ∧
      s.failedRequests.length + s.failedResponseReads.length + s.successDurations.length
        = rs.length ∧
      ((∀ r ∈ rs, r.isSuccess = true) →
        s.successDurations.length = rs.length ∧ s.failedRequests.length = 0 ∧
          s.failedResponseReads.length = 0) := by
  refine ⟨_, monitorWorker_spec rs h Stats.empty, ?_⟩
  have hsum := countP_categories rs
  have hall : (∀ r ∈ rs, r.isSuccess = true) → rs.countP Result.isSuccess = rs.length :=
    fun hs => List.countP_eq_length.mpr hs
  simp only [Stats.empty, List.nil_append, List.length_map, ← List.countP_eq_length_filter,
    true_and]
  refine ⟨hsum, fun hs => ?_⟩
  have := hall hs
  omega

/-- Witness for C1: six successful Results give the counts 6, 0 and 0. -/
theorem monitorWorker_classifies_witness :
    ∃ s, monitorWorker true Stats.empty (List.replicate 6 (okResult 0 5)) = some s ∧
      s.successDurations.length = 6 ∧ s.failedRequests.length = 0 ∧
      s.failedResponseReads.length = 0 := by
  obtain ⟨s, hs, _, _, _, _, hall⟩ :=
    monitorWorker_classifies (List.replicate 6 (okResult 0 5)) (by decide)
  exact ⟨s, hs, by simpa using hall (by decide)⟩

/-! ## Dispatcher (C7) -/

/-- Every Result of `doRequest` has a Response when its Error is nil. -/
theorem doRequest_wellFormed (a : Attempt) : (doRequest a).WellFormed := by
  obtain ⟨now, since, outcome⟩ := a
  cases outcome <;> simp [doRequest, Result.WellFormed]

/-- C7: `doRequest` always returns a Result, and it is exactly one of three
outcomes fixed by the client. If `client.Do` fails with `err`, the Result has
`Error = err` and no Response. If `client.Do` succeeds and reading the body
fails with `err`, the Result has `Error = nil` and a Response with the received
status and headers and `Response.Error = err`. If both succeed, the Result has
`Error = nil` and a Response with the received status and headers, the body
read as `Data` and `Response.Error = nil`. The three are classified as failed
request, failed response read and success respectively, and no Result is in
two classes. -/
theorem doRequest_outcomes (now : Int) (since : Duration) (err : String) (status : Int)
    (header : Header) (data : List Nat) (a : Attempt) :
    (doRequest ⟨now, since, .failed err⟩ = ⟨now, since, none, some err⟩ ∧
      (doRequest ⟨now, since, .failed err⟩).isFailedRequest = true) ∧
    (doRequest ⟨now, since, .ok ⟨status, header, (data, some err)⟩⟩ =
        ⟨now, since, some ⟨status, header, data, some err⟩, none⟩ ∧
      (doRequest ⟨now, since, .ok ⟨status, header, (data, some err)⟩⟩).isFailedResponseRead
        = true) ∧
    (doRequest ⟨now, since, .ok ⟨status, header, (data, none)⟩⟩ =
        ⟨now, since, some ⟨status, header, data, none⟩, none⟩ ∧
      (doRequest ⟨now, since, .ok ⟨status, header, (data, none)⟩⟩).isSuccess = true) ∧
    (((doRequest a).isFailedRequest = true ∧ (doRequest a).isFailedResponseRead = false ∧
        (doRequest a).isSuccess = false) ∨
      ((doRequest a).isFailedRequest = false ∧ (doRequest a).isFailedResponseRead = true ∧
        (doRequest a).isSuccess = false) ∨
      ((doRequest a).isFailedRequest = false ∧ (doRequest a).isFailedResponseRead = false ∧
        (doRequest a).isSuccess = true)) := by
  refine ⟨⟨rfl, rfl⟩, ⟨rfl, rfl⟩, ⟨rfl, rfl⟩, ?_⟩
  obtain ⟨n, s, outcome⟩ := a
  cases outcome with
  | failed e =>
    simp [doRequest, Result.isFailedRequest, Result.isFailedResponseRead, Result.isSuccess]
  | ok res =>
    obtain ⟨st, hd, d, e⟩ := res
    cases e <;>
      simp [doRequest, Result.isFailedRequest, Result.isFailedResponseRead, Result.isSuccess]

/-! ## Worker (C6) -/

/-- The sends of a concatenation. -/
theorem sentResults_append (xs ys : List WorkerEvent) :
    sentResults (xs ++ ys) = sentResults xs ++ sentResults ys := by
  induction xs with
  | nil => rfl
  | cons x rest ih => cases x <;> simp [sentResults, ih]

/-- One attempt sends one Result. -/
theorem sentResults_attemptEvents (env : Nat → Attempt) (wait : Duration) (k : Nat) :
    sentResults (attemptEvents env wait k) = [doRequest (env k)] := by
  unfold attemptEvents
  split <;> simp [sentResults]

/-- An attempt does not close the channel. -/
theorem close_not_mem_attemptEvents (env : Nat → Attempt) (wait : Duration) (k : Nat) :
    WorkerEvent.close ∉ attemptEvents env wait k := by
  unfold attemptEvents
  split <;> simp

/-- The loop from iteration `k` with `n` iterations left and fuel for them. -/
theorem doRequestsLoop_from (env : Nat → Attempt) (wait : Duration) (n : Nat) :
    ∀ (k : Nat) (tr : List WorkerEvent) (fuel : Nat), n ≤ fuel →
      doRequestsLoop env wait ((k + n : Nat) : Int) fuel ⟨(k : Int), k, tr⟩ =
        some ⟨((k + n : Nat) : Int), k + n,
          tr ++ (List.range' k n).flatMap (attemptEvents env wait) ++ [WorkerEvent.close]⟩ := by
  induction n with
  | zero =>
    intro k tr fuel _
    unfold doRequestsLoop
    simp
  | succ n ih =>
    intro k tr fuel hfuel
    obtain ⟨f, rfl⟩ : ∃ f, fuel = f + 1 := ⟨fuel - 1, by omega⟩
    unfold doRequestsLoop
    have hlt : ((k : Int) < ((k + (n + 1) : Nat) : Int)) := by omega
    simp only [hlt, if_true]
    have hk : ((k : Int) + 1) = ((k + 1 : Nat) : Int) := by omega
    have hkn : ((k + (n + 1) : Nat) : Int) = ((k + 1 + n : Nat) : Int) := by omega
    rw [hk, hkn, ih (k + 1) _ f (by omega)]
    have e1 : k + 1 + n = k + (n + 1) := by omega
    simp only [List.range'_succ, List.flatMap_cons, e1]
    by_cases h0 : k = 0
    · subst h0; simp [attemptEvents]
    · have : (0 : Int) < k := by omega
      have h0' : k > 0 := by omega
      simp [this, h0', attemptEvents]

/-- C6: for every `times` at least 1 and every pattern of per-attempt success
or failure, the worker started by `doRequests` (the channel can be made, the
loop has fuel for `times` iterations) runs to its end; it has made exactly
`times` calls of `doRequest`, has sent exactly `times` Results, the Result of
attempt `k` at position `k` whether it failed or not, and has closed the
channel once, after the last send. -/
theorem doRequests_emits (env : Nat → Attempt) (wait : Duration) (monitorBuffer : Int)
    (times : Int) (fuel : Nat) (hT : 1 ≤ times) (hB : 0 ≤ monitorBuffer)
    (hfuel : times.toNat ≤ fuel) :
    ∃ st body, doRequests monitorBuffer env wait times fuel = some st ∧
      (st.calls : Int) = times ∧
      sentResults st.trace = (List.range times.toNat).map (fun k => doRequest (env k)) ∧
      ((sentResults st.trace).length : Int) = times ∧
      st.trace = body ++ [WorkerEvent.close] ∧ WorkerEvent.close ∉ body ∧
      body = (List.range times.toNat).flatMap (attemptEvents env wait) := by
  obtain ⟨T, rfl⟩ : ∃ T : Nat, times = (T : Int) := ⟨times.toNat, by omega⟩
  simp only [Int.toNat_ofNat] at hfuel ⊢
  have h := doRequestsLoop_from env wait T 0 [] fuel hfuel
  simp only [Nat.zero_add, List.nil_append, Nat.cast_zero] at h
  have hs : sentResults ((List.range T).flatMap (attemptEvents env wait)) =
      (List.range T).map (fun k => doRequest (env k)) := by
    induction (List.range T) with
    | nil => rfl
    | cons x rest ih =>
      simp [List.flatMap_cons, sentResults_append, sentResults_attemptEvents, ih]
  rw [← List.range_eq_range'] at h
  refine ⟨⟨(T : Int), T, (List.range T).flatMap (attemptEvents env wait) ++ [WorkerEvent.close]⟩,
    (List.range T).flatMap (attemptEvents env wait), ?_, ?_, ?_, ?_, ?_, ?_, rfl⟩
  · unfold doRequests
    rw [if_neg (by omega)]
    exact h
  · rfl
  · simp [sentResults_append, hs, sentResults]
  · simp [sentResults_append, hs, sentResults]
  · rfl
  · intro hmem
    obtain ⟨k, _, hk⟩ := List.mem_flatMap.mp hmem
    exact close_not_mem_attemptEvents env wait k hk

/-- Witness for C6: three attempts of which the second fails give three sends
in order, then the close. -/
theorem doRequests_emits_witness :
    ∃ st body, doRequests 1 flakyEnv 7 3 3 = some st ∧
      (st.calls : Int) = 3 ∧
      sentResults st.trace = (List.range (3 : Int).toNat).map (fun k => doRequest (flakyEnv k)) ∧
      ((sentResults st.trace).length : Int) = 3 ∧
      st.trace = body ++ [WorkerEvent.close] ∧ WorkerEvent.close ∉ body ∧
      body = (List.range (3 : Int).toNat).flatMap (attemptEvents flakyEnv 7) :=
  doRequests_emits flakyEnv 7 1 3 3 (by decide) (by decide) (by decide)

/-! ## Interleaved monitors (C8) -/

/-- Splits a list at a valid index; `set` replaces the middle element. -/
theorem list_split_at {α : Type} (ms : List α) (i : Nat) (m : α) (h : ms[i]? = some m) :
    ∃ pre post, ms = pre ++ m :: post ∧ ∀ m1, ms.set i m1 = pre ++ m1 :: post := by
  induction ms generalizing i with
  | nil => simp at h
  | cons x rest ih =>
    cases i with
    | zero =>
      simp at h
      subst h
      exact ⟨[], rest, rfl, fun _ => rfl⟩
    | succ j =>
      simp at h
      obtain ⟨pre, post, h1, h2⟩ := ih j h
      refine ⟨x :: pre, post, by simp [h1], fun m1 => ?_⟩
      simp [List.set, h2 m1]

/-- A goroutine outside the recording methods has no computed slice. -/
theorem Monitor.fresh_of_crit_zero (m : Monitor) (s : Stats) (h : m.crit = 0) : m.fresh s := by
  obtain ⟨pending, pc⟩ := m
  cases pc <;> simp [Monitor.crit, Monitor.fresh] at h ⊢

/-- What one step of one goroutine changes. -/
theorem stepMonitor_local (locked l1 : Bool) (s s1 : Stats) (m m1 : Monitor)
    (h : stepMonitor true locked s m = some (l1, s1, m1)) (hf : m.fresh s) :
    (m1.crit + (if locked then 1 else 0) = m.crit + (if l1 then 1 else 0)) ∧
    (s1.entries + m1.owed = s.entries + m.owed) ∧
    (s1.failedRequests.length + s.failedRequestDurations.length + m.lagFR =
      s.failedRequests.length + s1.failedRequestDurations.length + m1.lagFR) ∧
    (s1.failedResponseReads.length + s.failedResponseReadDurations.length + m.lagRR =
      s.failedResponseReads.length + s1.failedResponseReadDurations.length + m1.lagRR) ∧
    m1.fresh s1 ∧ (s1 = s ∨ m.crit = 1) ∧ (m1.pc = .exited → m1.pending = []) := by
  obtain ⟨pending, pc⟩ := m
  cases pc with
  | recv =>
    cases pending with
    | nil =>
      simp [stepMonitor] at h
      obtain ⟨rfl, rfl, rfl⟩ := h
      simp [Monitor.crit, Monitor.owed, Monitor.lagFR, Monitor.lagRR, Monitor.fresh]
    | cons r rest =>
      simp only [stepMonitor] at h
      cases hc : classify r with
      | none => simp [hc] at h
      | some c =>
        simp [hc] at h
        obtain ⟨rfl, rfl, rfl⟩ := h
        simp [Monitor.crit, Monitor.owed, Monitor.lagFR, Monitor.lagRR, Monitor.fresh]
  | lock c =>
    cases locked with
    | true => simp [stepMonitor] at h
    | false =>
      simp [stepMonitor] at h
      obtain ⟨rfl, rfl, rfl⟩ := h
      cases c <;>
        simp [Monitor.crit, Monitor.owed, Monitor.lagFR, Monitor.lagRR, Monitor.fresh, afterLock]
  | unlock =>
    cases locked with
    | false => simp [stepMonitor] at h
    | true =>
      simp [stepMonitor] at h
      obtain ⟨rfl, rfl, rfl⟩ := h
      simp [Monitor.crit, Monitor.owed, Monitor.lagFR, Monitor.lagRR, Monitor.fresh]
  | exited => simp [stepMonitor] at h
  | frAppendErr e d | frAppendDur d | rrAppendErr e d | rrAppendDur d | okAppend d =>
    simp [stepMonitor] at h
    obtain ⟨rfl, rfl, rfl⟩ := h
    simp [Monitor.crit, Monitor.owed, Monitor.lagFR, Monitor.lagRR, Monitor.fresh]
  | frStoreErr v d | rrStoreErr v d | frStoreDur v | rrStoreDur v | okStore v =>
    simp [stepMonitor] at h
    obtain ⟨rfl, rfl, rfl⟩ := h
    simp [Monitor.fresh] at hf
    simp [Monitor.crit, Monitor.owed, Monitor.lagFR, Monitor.lagRR, Monitor.fresh,
      Stats.entries, hf]
    try omega

/-- The invariant holds at the start, for the number of Results queued. -/
theorem MonitorSystem.inv_init (queues : List (List Result)) :
    (MonitorSystem.init queues).Inv (queues.map List.length).sum := by
  have hmap : ∀ (f : Monitor → Nat) (g : List Result → Nat),
      (∀ q, f { pending := q, pc := .recv } = g q) →
      ((queues.map fun q => ({ pending := q, pc := .recv } : Monitor)).map f).sum
        = (queues.map g).sum := by
    intro f g hfg
    rw [List.map_map]
    congr 1
    exact List.map_congr_left fun q _ => hfg q
  constructor
  · simp only [MonitorSystem.init]
    rw [hmap Monitor.crit (fun _ => 0) (fun _ => rfl)]
    simp
  · simp only [MonitorSystem.init]
    rw [hmap Monitor.owed List.length (fun q => by simp [Monitor.owed])]
    simp [Stats.empty, Stats.entries]
  · simp only [MonitorSystem.init]
    rw [hmap Monitor.lagFR (fun _ => 0) (fun _ => rfl)]
    simp [Stats.empty]
  · simp only [MonitorSystem.init]
    rw [hmap Monitor.lagRR (fun _ => 0) (fun _ => rfl)]
    simp [Stats.empty]
  · intro m hm
    simp only [MonitorSystem.init, List.mem_map] at hm
    obtain ⟨q, _, rfl⟩ := hm
    simp [Monitor.fresh]
  · intro m hm
    simp only [MonitorSystem.init, List.mem_map] at hm
    obtain ⟨q, _, rfl⟩ := hm
    simp

/-- Every step of every goroutine keeps the invariant. -/
theorem MonitorSystem.inv_step (n i : Nat) (σ σ1 : MonitorSystem) (hinv : σ.Inv n)
    (h : σ.step true i = some σ1) : σ1.Inv n := by
  unfold MonitorSystem.step at h
  cases hm : σ.monitors[i]? with
  | none => simp [hm] at h
  | some m =>
    simp only [hm] at h
    cases hs : stepMonitor true σ.locked σ.stats m with
    | none => simp [hs] at h
    | some r =>
      obtain ⟨l1, s1, m1⟩ := r
      simp only [hs, Option.some.injEq] at h
      subst h
      obtain ⟨pre, post, hsplit, hset⟩ := list_split_at σ.monitors i m hm
      have hmem : m ∈ σ.monitors := by rw [hsplit]; simp
      obtain ⟨hc, ht, hfr, hrr, hfresh, hframe, hdr⟩ :=
        stepMonitor_local σ.locked l1 σ.stats s1 m m1 hs (hinv.fresh m hmem)
      have h1 := hinv.mutex
      have h2 := hinv.total
      have h3 := hinv.lagFR
      have h4 := hinv.lagRR
      rw [hsplit] at h1 h2 h3 h4
      simp only [List.map_append, List.map_cons, List.sum_append, List.sum_cons] at h1 h2 h3 h4
      constructor
      · simp only [hset, List.map_append, List.map_cons, List.sum_append, List.sum_cons]
        cases hl : σ.locked <;> cases hl1 : l1 <;> simp [hl, hl1] at h1 hc ⊢ <;> omega
      · simp only [hset, List.map_append, List.map_cons, List.sum_append, List.sum_cons]
        omega
      · simp only [hset, List.map_append, List.map_cons, List.sum_append, List.sum_cons]
        omega
      · simp only [hset, List.map_append, List.map_cons, List.sum_append, List.sum_cons]
        omega
      · intro x hx
        simp only [hset, List.mem_append, List.mem_cons] at hx
        have hother : x ∈ pre ∨ x ∈ post → x.fresh s1 := by
          intro hxo
          have hxm : x ∈ σ.monitors := by
            rw [hsplit]
            simp only [List.mem_append, List.mem_cons]
            tauto
          rcases hframe with hsame | hcrit
          · rw [hsame]; exact hinv.fresh x hxm
          · apply Monitor.fresh_of_crit_zero
            have hle :
                (pre.map Monitor.crit).sum + (m.crit + (post.map Monitor.crit).sum) ≤ 1 := by
              rw [h1]; split <;> omega
            have hpre : (pre.map Monitor.crit).sum = 0 := by omega
            have hpost : (post.map Monitor.crit).sum = 0 := by omega
            rcases hxo with hp | hp
            · exact List.sum_eq_zero_iff.mp hpre _ (List.mem_map_of_mem _ hp)
            · exact List.sum_eq_zero_iff.mp hpost _ (List.mem_map_of_mem _ hp)
        rcases hx with hx | rfl | hx
        · exact hother (Or.inl hx)
        · exact hfresh
        · exact hother (Or.inr hx)
      · intro x hx
        simp only [hset, List.mem_append, List.mem_cons] at hx
        have hxm : x ∈ pre ∨ x ∈ post → x ∈ σ.monitors := by
          intro hxo
          rw [hsplit]
          simp only [List.mem_append, List.mem_cons]
          tauto
        rcases hx with hx | rfl | hx
        · exact hinv.drained x (hxm (Or.inl hx))
        · exact hdr
        · exact hinv.drained x (hxm (Or.inr hx))

/-- Every schedule keeps the invariant. -/
theorem MonitorSystem.inv_run (n : Nat) (sched : List Nat) (σ σ1 : MonitorSystem)
    (hinv : σ.Inv n)
    (h : σ.run true sched = some σ1) : σ1.Inv n := by
  induction sched generalizing σ with
  | nil =>
    simp [MonitorSystem.run] at h
    subst h
    exact hinv
  | cons i rest ih =>
    simp only [MonitorSystem.run] at h
    cases hs : σ.step true i with
    | none => simp [hs] at h
    | some σ2 =>
      simp only [hs] at h
      exact ih σ2 (MonitorSystem.inv_step n i σ σ2 hinv hs) h

/-- Once every goroutine has exited the invariant gives the final counts. -/
theorem MonitorSystem.inv_final (n : Nat) (σ : MonitorSystem) (hinv : σ.Inv n)
    (hdone : σ.allExited = true) :
    σ.stats.entries = n ∧
      σ.stats.failedRequests.length = σ.stats.failedRequestDurations.length ∧
      σ.stats.failedResponseReads.length = σ.stats.failedResponseReadDurations.length := by
  have hall : ∀ m ∈ σ.monitors, m.pc = .exited := by
    simpa [MonitorSystem.allExited] using hdone
  have hlagFR : (σ.monitors.map Monitor.lagFR).sum = 0 := by
    apply List.sum_eq_zero_iff.mpr
    intro x hx
    obtain ⟨m, hm, rfl⟩ := List.mem_map.mp hx
    simp [Monitor.lagFR, hall m hm]
  have hlagRR : (σ.monitors.map Monitor.lagRR).sum = 0 := by
    apply List.sum_eq_zero_iff.mpr
    intro x hx
    obtain ⟨m, hm, rfl⟩ := List.mem_map.mp hx
    simp [Monitor.lagRR, hall m hm]
  have howed : (σ.monitors.map Monitor.owed).sum = 0 := by
    apply List.sum_eq_zero_iff.mpr
    intro x hx
    obtain ⟨m, hm, rfl⟩ := List.mem_map.mp hx
    simp [Monitor.owed, hall m hm, hinv.drained m hm (hall m hm)]
  have h2 := hinv.total
  have h3 := hinv.lagFR
  have h4 := hinv.lagRR
  omega

/-- The number of Results queued for `W` workers with `T` Results each. -/
theorem sum_lengths_eq_mul (queues : List (List Result)) (T : Nat)
    (hT : ∀ q ∈ queues, q.length = T) : (queues.map List.length).sum = queues.length * T := by
  induction queues with
  | nil => simp
  | cons q rest ih =>
    have hq : q.length = T := hT q (List.mem_cons_self _ _)
    have hrest := ih fun x hx => hT x (List.mem_cons_of_mem _ hx)
    simp only [List.map_cons, List.sum_cons, List.length_cons, hq, hrest]
    ring

/-- C8: with recording enabled, `W` monitors each fed `T` Results record into
one shared, initially empty Stats. For every interleaving of their steps (the
mutex operations, slice reads and slice assignments of the recording calls)
that runs until all monitors have exited, the number of entries over the
three categories is exactly `W * T`, and each error list is as long as its
duration list. -/
theorem monitors_lose_no_update (W T : Nat) (queues : List (List Result)) (sched : List Nat)
    (σ : MonitorSystem) (hW : queues.length = W) (hT : ∀ q ∈ queues, q.length = T)
    (hrun : (MonitorSystem.init queues).run true sched = some σ) (hdone : σ.allExited = true) :
    σ.stats.failedRequests.length + σ.stats.failedResponseReads.length +
        σ.stats.successDurations.length = W * T ∧
      σ.stats.failedRequests.length = σ.stats.failedRequestDurations.length ∧
      σ.stats.failedResponseReads.length = σ.stats.failedResponseReadDurations.length := by
  have hinv := MonitorSystem.inv_run _ sched _ σ (MonitorSystem.inv_init queues) hrun
  rw [sum_lengths_eq_mul queues T hT, hW] at hinv
  exact MonitorSystem.inv_final (W * T) σ hinv hdone

/-- Witness for C8: two monitors with three Results each, interleaved by
`twoSchedule`, end with six entries. -/
theorem monitors_lose_no_update_witness :
    ∃ σ, (MonitorSystem.init twoQueues).run true twoSchedule = some σ ∧ σ.allExited = true ∧
      σ.stats.failedRequests.length + σ.stats.failedResponseReads.length +
        σ.stats.successDurations.length = 2 * 3 ∧
      σ.stats.failedRequests.length = σ.stats.failedRequestDurations.length ∧
      σ.stats.failedResponseReads.length = σ.stats.failedResponseReadDurations.length := by
  have hrun : (MonitorSystem.init twoQueues).run true twoSchedule = some
      { locked := false
        stats := ⟨[some "timeout"], [9], [some "unexpected EOF"], [6], [4, 5, 5, 5]⟩
        monitors := [⟨[], .exited⟩, ⟨[], .exited⟩] } := by decide
  exact ⟨_, hrun, by decide,
    monitors_lose_no_update 2 3 twoQueues twoSchedule _ (by decide) (by decide) hrun (by decide)⟩

/-! ## Interleaved monitors: atomicity, termination, no deadlock -/

/-- `monitorStep` makes the recording call `classify` names. -/
theorem monitorStep_eq_classify (reportStats : Bool) (stats : Stats) (result : Result) :
    monitorStep reportStats stats result = (classify result).map (stats.record reportStats) := by
  unfold monitorStep classify
  split
  · rfl
  · split
    · rfl
    · split <;> rfl

/-- A recording call that runs without interruption from a free mutex has the
effect of the recording method and frees the mutex. -/
theorem call_alone (c : RecordCall) (s : Stats) (pending : List Result) :
    ∃ sched, (MonitorSystem.run true sched
        { locked := false, stats := s, monitors := [⟨pending, .lock c⟩] }) =
      some { locked := false, stats := s.record true c, monitors := [⟨pending, .recv⟩] } := by
  cases c with
  | failedRequest e d =>
    exact ⟨[0, 0, 0, 0, 0, 0], by
      simp [MonitorSystem.run, MonitorSystem.step, stepMonitor, afterLock, Stats.record,
        Stats.ReportFailedRequest]⟩
  | failedResponseRead e d =>
    exact ⟨[0, 0, 0, 0, 0, 0], by
      simp [MonitorSystem.run, MonitorSystem.step, stepMonitor, afterLock, Stats.record,
        Stats.ReportFailedResponseRead]⟩
  | success d =>
    exact ⟨[0, 0, 0, 0], by
      simp [MonitorSystem.run, MonitorSystem.step, stepMonitor, afterLock, Stats.record,
        Stats.ReportSuccess]⟩

/-- Every step of a goroutine uses up its bound and takes no new Result. -/
theorem stepMonitor_stepsLeft (reportStats locked l1 : Bool) (s s1 : Stats) (m m1 : Monitor)
    (h : stepMonitor reportStats locked s m = some (l1, s1, m1)) :
    m1.stepsLeft < m.stepsLeft ∧ ∀ r ∈ m1.pending, r ∈ m.pending := by
  obtain ⟨pending, pc⟩ := m
  cases pc with
  | recv =>
    cases pending with
    | nil =>
      simp [stepMonitor] at h
      obtain ⟨rfl, rfl, rfl⟩ := h
      simp [Monitor.stepsLeft]
    | cons r rest =>
      simp only [stepMonitor] at h
      cases hc : classify r with
      | none => simp [hc] at h
      | some c =>
        cases reportStats <;>
        · simp [hc] at h
          obtain ⟨rfl, rfl, rfl⟩ := h
          simp only [Monitor.stepsLeft, List.length_cons]
          exact ⟨by omega, fun x hx => List.mem_cons_of_mem _ hx⟩
  | lock c =>
    cases locked with
    | true => simp [stepMonitor] at h
    | false =>
      simp [stepMonitor] at h
      obtain ⟨rfl, rfl, rfl⟩ := h
      cases c <;> simp [Monitor.stepsLeft, afterLock]
  | unlock =>
    cases locked with
    | false => simp [stepMonitor] at h
    | true =>
      simp [stepMonitor] at h
      obtain ⟨rfl, rfl, rfl⟩ := h
      simp [Monitor.stepsLeft]
  | exited => simp [stepMonitor] at h
  | frAppendErr e d | frAppendDur d | rrAppendErr e d | rrAppendDur d | okAppend d
  | frStoreErr v d | rrStoreErr v d | frStoreDur v | rrStoreDur v | okStore v =>
    simp [stepMonitor] at h
    obtain ⟨rfl, rfl, rfl⟩ := h
    simp [Monitor.stepsLeft]

/-- Every step uses up the bound of the whole system and keeps the pending
Results classifiable. -/
theorem MonitorSystem.step_stepsLeft (reportStats : Bool) (i : Nat) (σ σ1 : MonitorSystem)
    (h : σ.step reportStats i = some σ1) :
    σ1.stepsLeft < σ.stepsLeft ∧ (σ.Classifiable → σ1.Classifiable) := by
  unfold MonitorSystem.step at h
  cases hm : σ.monitors[i]? with
  | none => simp [hm] at h
  | some m =>
    simp only [hm] at h
    cases hs : stepMonitor reportStats σ.locked σ.stats m with
    | none => simp [hs] at h
    | some r =>
      obtain ⟨l1, s1, m1⟩ := r
      simp only [hs, Option.some.injEq] at h
      subst h
      obtain ⟨pre, post, hsplit, hset⟩ := list_split_at σ.monitors i m hm
      obtain ⟨hlt, hsub⟩ := stepMonitor_stepsLeft reportStats σ.locked l1 σ.stats s1 m m1 hs
      constructor
      · simp only [MonitorSystem.stepsLeft, hset]
        rw [hsplit]
        simp only [List.map_append, List.map_cons, List.sum_append, List.sum_cons]
        omega
      · intro hcls x hx r hr
        simp only [hset, List.mem_append, List.mem_cons] at hx
        have hmem : ∀ y, y ∈ pre ∨ y = m ∨ y ∈ post → y ∈ σ.monitors := by
          intro y hy
          rw [hsplit]
          simpa only [List.mem_append, List.mem_cons] using hy
        rcases hx with hx | rfl | hx
        · exact hcls x (hmem x (Or.inl hx)) r hr
        · exact hcls m (hmem m (Or.inr (Or.inl rfl))) r (hsub r hr)
        · exact hcls x (hmem x (Or.inr (Or.inr hx))) r hr

/-- A schedule is no longer than the bound of the state it starts from. -/
theorem MonitorSystem.run_length_le (reportStats : Bool) (sched : List Nat)
    (σ σ1 : MonitorSystem) (h : σ.run reportStats sched = some σ1) :
    sched.length + σ1.stepsLeft ≤ σ.stepsLeft := by
  induction sched generalizing σ with
  | nil =>
    simp [MonitorSystem.run] at h
    subst h
    simp
  | cons i rest ih =>
    simp only [MonitorSystem.run] at h
    cases hs : σ.step reportStats i with
    | none => simp [hs] at h
    | some σ2 =>
      simp only [hs] at h
      have := ih σ2 h
      have := (MonitorSystem.step_stepsLeft reportStats i σ σ2 hs).1
      simp only [List.length_cons]
      omega

/-- A goroutine inside a recording method can step while the mutex is held. -/
theorem stepMonitor_crit_enabled (s : Stats) (m : Monitor) (h : m.crit = 1) :
    stepMonitor true true s m ≠ none := by
  obtain ⟨pending, pc⟩ := m
  cases pc <;> simp [Monitor.crit, stepMonitor] at h ⊢

/-- A list of naturals with a positive sum has a positive element. -/
theorem exists_pos_of_sum_pos (ms : List Monitor) (f : Monitor → Nat)
    (h : 0 < (ms.map f).sum) : ∃ (i : Nat) (m : Monitor), ms[i]? = some m ∧ 0 < f m := by
  induction ms with
  | nil => simp at h
  | cons x rest ih =>
    simp only [List.map_cons, List.sum_cons] at h
    by_cases hx : 0 < f x
    · exact ⟨0, x, by simp, hx⟩
    · obtain ⟨i, m, hi, hm⟩ := ih (by omega)
      exact ⟨i + 1, m, by simpa using hi, hm⟩

/-- No deadlock: while some goroutine has not exited, some goroutine can
step. -/
theorem MonitorSystem.progress (n : Nat) (σ : MonitorSystem) (hinv : σ.Inv n)
    (hcls : σ.Classifiable) (hstuck : ∀ i, σ.step true i = none) : σ.allExited = true := by
  have hcritfree : ∀ (i : Nat) (m : Monitor), σ.monitors[i]? = some m → m.crit = 0 := by
    intro i m hi
    by_contra hc
    have hc1 : m.crit = 1 := by
      obtain ⟨pending, pc⟩ := m
      cases pc <;> simp [Monitor.crit] at hc ⊢
    obtain ⟨pre, post, hsplit, _⟩ := list_split_at σ.monitors i m hi
    have hmx := hinv.mutex
    rw [hsplit] at hmx
    simp only [List.map_append, List.map_cons, List.sum_append, List.sum_cons] at hmx
    have hl : σ.locked = true := by
      by_contra hl
      simp [hl] at hmx
      omega
    have hst := hstuck i
    simp only [MonitorSystem.step, hi, hl] at hst
    have hen := stepMonitor_crit_enabled σ.stats m hc1
    cases hs : stepMonitor true true σ.stats m with
    | none => exact hen hs
    | some r => simp [hs] at hst
  have hunlocked : σ.locked = false := by
    by_contra hl
    have hmx := hinv.mutex
    simp [hl] at hmx
    obtain ⟨i, m, hi, hm⟩ := exists_pos_of_sum_pos σ.monitors Monitor.crit (by omega)
    have := hcritfree i m hi
    omega
  simp only [MonitorSystem.allExited, List.all_eq_true, decide_eq_true_eq]
  intro m hm
  obtain ⟨i, hi⟩ := List.mem_iff_getElem?.mp hm
  have hst := hstuck i
  simp only [MonitorSystem.step, hi, hunlocked] at hst
  have hmem := hcls m hm
  have hc0 := hcritfree i m hi
  obtain ⟨pending, pc⟩ := m
  cases pc with
  | exited => rfl
  | recv =>
    cases pending with
    | nil => simp [stepMonitor] at hst
    | cons r rest =>
      have hr := hmem r (List.mem_cons_self _ _)
      cases hc : classify r with
      | none => exact absurd hc hr
      | some c => simp [stepMonitor, hc] at hst
  | lock c => simp [stepMonitor] at hst
  | _ => simp [Monitor.crit] at hc0

/-- From every state the monitors can reach, some schedule lets all of them
exit. -/
theorem MonitorSystem.completes (n : Nat) (k : Nat) :
    ∀ σ : MonitorSystem, σ.stepsLeft ≤ k → σ.Inv n → σ.Classifiable →
      ∃ sched σ1, σ.run true sched = some σ1 ∧ σ1.allExited = true := by
  induction k with
  | zero =>
    intro σ hk hinv hcls
    refine ⟨[], σ, rfl, ?_⟩
    apply MonitorSystem.progress n σ hinv hcls
    intro i
    cases hs : σ.step true i with
    | none => rfl
    | some σ2 =>
      have := (MonitorSystem.step_stepsLeft true i σ σ2 hs).1
      omega
  | succ k ih =>
    intro σ hk hinv hcls
    by_cases hstuck : ∀ i, σ.step true i = none
    · exact ⟨[], σ, rfl, MonitorSystem.progress n σ hinv hcls hstuck⟩
    · push_neg at hstuck
      obtain ⟨i, hi⟩ := hstuck
      cases hs : σ.step true i with
      | none => exact absurd hs hi
      | some σ2 =>
        obtain ⟨hlt, hc2⟩ := MonitorSystem.step_stepsLeft true i σ σ2 hs
        obtain ⟨sched, σ1, hrun, hdone⟩ :=
          ih σ2 (by omega) (MonitorSystem.inv_step n i σ σ2 hinv hs) (hc2 hcls)
        refine ⟨i :: sched, σ1, ?_, hdone⟩
        simp [MonitorSystem.run, hs, hrun]

/-- A Result with a Response whenever its Error is nil is classified. -/
theorem classify_ne_none (r : Result) (h : r.WellFormed) : classify r ≠ none := by
  obtain ⟨start, dur, resp, err⟩ := r
  cases err with
  | some msg => simp [classify]
  | none =>
    cases resp with
    | none => exact absurd rfl (h rfl)
    | some response =>
      by_cases he : response.Error = none <;> simp [classify, he]

/-- Every schedule keeps the pending Results classifiable. -/
theorem MonitorSystem.run_classifiable (reportStats : Bool) (sched : List Nat)
    (σ σ1 : MonitorSystem) (h : σ.run reportStats sched = some σ1) (hcls : σ.Classifiable) :
    σ1.Classifiable := by
  induction sched generalizing σ with
  | nil =>
    simp [MonitorSystem.run] at h
    subst h
    exact hcls
  | cons i rest ih =>
    simp only [MonitorSystem.run] at h
    cases hs : σ.step reportStats i with
    | none => simp [hs] at h
    | some σ2 =>
      simp only [hs] at h
      exact ih σ2 h ((MonitorSystem.step_stepsLeft reportStats i σ σ2 hs).2 hcls)

/-- Every interleaving of monitors fed well-formed Results is finite and can be
continued until all monitors have exited: none deadlocks on the mutex. -/
theorem monitors_finish (queues : List (List Result))
    (hwf : ∀ q ∈ queues, ∀ r ∈ q, r.WellFormed) (sched : List Nat) (σ : MonitorSystem)
    (hrun : (MonitorSystem.init queues).run true sched = some σ) :
    sched.length ≤ (MonitorSystem.init queues).stepsLeft ∧
      ∃ rest σ1, σ.run true rest = some σ1 ∧ σ1.allExited = true := by
  have hcls0 : (MonitorSystem.init queues).Classifiable := by
    intro m hm r hr
    simp only [MonitorSystem.init, List.mem_map] at hm
    obtain ⟨q, hq, rfl⟩ := hm
    exact classify_ne_none r (hwf q hq r hr)
  have hlen := MonitorSystem.run_length_le true sched _ σ hrun
  refine ⟨by omega, ?_⟩
  exact MonitorSystem.completes _ σ.stepsLeft σ (Nat.le_refl _)
    (MonitorSystem.inv_run _ sched _ σ (MonitorSystem.inv_init queues) hrun)
    (MonitorSystem.run_classifiable true sched _ σ hrun hcls0)

/-! ## float64 rounding -/

/-- Rounding never goes below the floor. -/
theorem roundHalfEven_ge (num den : Nat) : num / den ≤ roundHalfEven num den := by
  unfold roundHalfEven
  simp only
  split_ifs <;> omega

/-- Rounding never goes above the floor plus one. -/
theorem roundHalfEven_le (num den : Nat) : roundHalfEven num den ≤ num / den + 1 := by
  unfold roundHalfEven
  simp only
  split_ifs <;> omega

/-- An exact quotient is its own rounding. -/
theorem roundHalfEven_exact (num den : Nat) (hd : 0 < den) (h : num % den = 0) :
    roundHalfEven num den = num / den := by
  unfold roundHalfEven
  simp only [h]
  split_ifs <;> omega

/-- Rounding up happens only from the upper half. -/
theorem roundHalfEven_up (num den : Nat) (h : roundHalfEven num den ≠ num / den) :
    roundHalfEven num den = num / den + 1 ∧ den ≤ 2 * (num % den) := by
  unfold roundHalfEven at h ⊢
  simp only at h ⊢
  split_ifs at h ⊢ <;> omega

/-- Rounding does not depend on a common factor. -/
theorem roundHalfEven_scale (num den c : Nat) (hc : 0 < c) :
    roundHalfEven (num * c) (den * c) = roundHalfEven num den := by
  unfold roundHalfEven
  simp only [Nat.mul_div_mul_right _ _ hc, Nat.mul_mod_mul_right]
  have h1 : (2 * (num % den * c) < den * c) ↔ (2 * (num % den) < den) := by
    rw [← Nat.mul_assoc]
    exact Nat.mul_lt_mul_right hc
  have h2 : (den * c < 2 * (num % den * c)) ↔ (den < 2 * (num % den)) := by
    rw [← Nat.mul_assoc]
    exact Nat.mul_lt_mul_right hc
  simp only [h1, h2]

/-- The rounding is within one half of the quotient, and a tie goes to the even
neighbour. -/
theorem roundHalfEven_nearest (num den : Nat) (hd : 0 < den) :
    2 * (roundHalfEven num den * den) ≤ 2 * num + den ∧
      2 * num ≤ 2 * (roundHalfEven num den * den) + den ∧
      (2 * (num % den) = den → roundHalfEven num den % 2 = 0) := by
  have hdm := Nat.div_add_mod num den
  have hr := Nat.mod_lt num hd
  have hcomm : num / den * den = den * (num / den) := Nat.mul_comm _ _
  unfold roundHalfEven
  simp only
  split_ifs with h1 h2 h3
  · refine ⟨by omega, by omega, by omega⟩
  · rw [Nat.add_mul]
    refine ⟨by omega, by omega, by omega⟩
  · refine ⟨by omega, by omega, by omega⟩
  · rw [Nat.add_mul]
    refine ⟨by omega, by omega, by omega⟩

set_option maxRecDepth 100000 in
/-- Known `float64` values: `float64(2^53 + 1)` is `2^53`, `float64(2^53 + 3)` is
`2^53 + 4`, and `1.0 / 3.0` has the significand `0x15555555555555` at exponent
`-54`. -/
theorem float64_known_values :
    float64OfInt 9007199254740993 = ⟨false, 4503599627370496, 53, 52⟩ ∧
      float64OfInt 9007199254740995 = ⟨false, 4503599627370498, 53, 52⟩ ∧
      float64Div (float64OfInt 1) (float64OfInt 3) =
        some ⟨false, 6004799503160661, 104, 158⟩ := by
  refine ⟨by decide, by decide, by decide⟩

/-- With enough fuel `log2Aux` finds the leading bit. -/
theorem log2Aux_bounds (fuel n : Nat) (hf : n ≤ fuel) (hn : 0 < n) :
    2 ^ log2Aux fuel n ≤ n ∧ n < 2 ^ (log2Aux fuel n + 1) := by
  induction fuel generalizing n with
  | zero => omega
  | succ fuel ih =>
    unfold log2Aux
    by_cases h2 : n < 2
    · rw [if_pos h2]
      simp
      omega
    · rw [if_neg h2]
      obtain ⟨h3, h4⟩ := ih (n / 2) (by omega) (by omega)
      constructor
      · rw [pow_succ]; omega
      · rw [pow_succ]; omega

/-- The leading bit of a positive number. -/
theorem floorLog2_bounds (n : Nat) (hn : 0 < n) :
    2 ^ floorLog2 n ≤ n ∧ n < 2 ^ (floorLog2 n + 1) :=
  log2Aux_bounds n n (Nat.le_refl n) hn

/-- The scaled quotient that `roundToF64` rounds lies in `[2^52, 2^53)`. -/
theorem binade_bounds (num den : Nat) (hn : 0 < num) (hd : 0 < den) :
    den * 2 ^ floorLog2 num * 2 ^ 52 ≤ num * 2 ^ (floorLog2 den + binadeShift num den + 52) ∧
      num * 2 ^ (floorLog2 den + binadeShift num den + 52) < den * 2 ^ floorLog2 num * 2 ^ 53 := by
  unfold binadeShift
  obtain ⟨ha1, ha2⟩ := floorLog2_bounds num hn
  obtain ⟨hb1, hb2⟩ := floorLog2_bounds den hd
  generalize floorLog2 num = a at *
  generalize floorLog2 den = b at *
  have hpa : 0 < 2 ^ a := Nat.two_pow_pos _
  have hpb : 0 < 2 ^ b := Nat.two_pow_pos _
  rw [pow_succ] at ha2 hb2
  by_cases htest : den * 2 ^ a ≤ num * 2 ^ b
  · rw [if_pos htest]
    have e1 : num * 2 ^ (b + 0 + 52) = num * 2 ^ b * 2 ^ 52 := by
      rw [Nat.add_zero, pow_add, Nat.mul_assoc]
    rw [e1]
    constructor
    · exact Nat.mul_le_mul_right _ htest
    · have h3 : num * 2 ^ b < den * 2 ^ a * 2 := by
        calc num * 2 ^ b < 2 ^ a * 2 * 2 ^ b := Nat.mul_lt_mul_of_pos_right ha2 hpb
          _ = 2 ^ b * 2 ^ a * 2 := by ring
          _ ≤ den * 2 ^ a * 2 := by
            apply Nat.mul_le_mul_right
            exact Nat.mul_le_mul_right _ hb1
      calc num * 2 ^ b * 2 ^ 52 < den * 2 ^ a * 2 * 2 ^ 52 :=
            Nat.mul_lt_mul_of_pos_right h3 (by norm_num)
        _ = den * 2 ^ a * 2 ^ 53 := by ring
  · rw [if_neg htest]
    have e1 : num * 2 ^ (b + 1 + 52) = num * 2 ^ b * 2 * 2 ^ 52 := by
      rw [pow_add, pow_succ]
      ring
    rw [e1]
    have htest1 : num * 2 ^ b < den * 2 ^ a := by omega
    constructor
    · apply Nat.mul_le_mul_right
      calc den * 2 ^ a ≤ 2 ^ b * 2 * 2 ^ a := Nat.mul_le_mul_right _ (Nat.le_of_lt hb2)
        _ = 2 ^ a * 2 ^ b * 2 := by ring
        _ ≤ num * 2 ^ b * 2 := by
          apply Nat.mul_le_mul_right
          exact Nat.mul_le_mul_right _ ha1
    · calc num * 2 ^ b * 2 * 2 ^ 52 < den * 2 ^ a * 2 * 2 ^ 52 := by
            apply Nat.mul_lt_mul_of_pos_right _ (by norm_num)
            exact Nat.mul_lt_mul_of_pos_right htest1 (by norm_num)
        _ = den * 2 ^ a * 2 ^ 53 := by ring

/-- What `roundToF64` returns for a positive quotient: the significand is the
rounding of the quotient scaled into `[2^52, 2^53)`. -/
theorem roundToF64_spec (neg : Bool) (num den : Nat) (hn : 0 < num) (hd : 0 < den) :
    (roundToF64 neg num den).neg = neg ∧
      (roundToF64 neg num den).mant =
        roundHalfEven (num * 2 ^ (roundToF64 neg num den).down)
          (den * 2 ^ (roundToF64 neg num den).up) ∧
      den * 2 ^ (roundToF64 neg num den).up * 2 ^ 52 ≤ num * 2 ^ (roundToF64 neg num den).down ∧
      num * 2 ^ (roundToF64 neg num den).down < den * 2 ^ (roundToF64 neg num den).up * 2 ^ 53 := by
  have hb := binade_bounds num den hn hd
  have hne : num ≠ 0 := by omega
  simp only [roundToF64, hne, if_false, true_and]
  exact ⟨hb.1, hb.2⟩

/-- The significand of a rounded positive quotient lies in `[2^52, 2^53]`. -/
theorem mant_bounds (num den up down : Nat) (hd : 0 < den)
    (h1 : den * 2 ^ up * 2 ^ 52 ≤ num * 2 ^ down) (h2 : num * 2 ^ down < den * 2 ^ up * 2 ^ 53) :
    2 ^ 52 ≤ roundHalfEven (num * 2 ^ down) (den * 2 ^ up) ∧
      roundHalfEven (num * 2 ^ down) (den * 2 ^ up) ≤ 2 ^ 53 := by
  have hD : 0 < den * 2 ^ up := Nat.mul_pos hd (Nat.two_pow_pos _)
  have hlo : 2 ^ 52 ≤ num * 2 ^ down / (den * 2 ^ up) := by
    rw [Nat.le_div_iff_mul_le hD, Nat.mul_comm]
    exact h1
  have hhi : num * 2 ^ down / (den * 2 ^ up) < 2 ^ 53 := by
    rw [Nat.div_lt_iff_lt_mul hD, Nat.mul_comm (2 ^ 53)]
    exact h2
  have := roundHalfEven_ge (num * 2 ^ down) (den * 2 ^ up)
  have := roundHalfEven_le (num * 2 ^ down) (den * 2 ^ up)
  constructor <;> omega

/-- Equal fractions have equal floors. -/
theorem div_eq_of_cross (num den A B : Nat) (hd : 0 < den) (hB : 0 < B)
    (h : num * B = A * den) : num / den = A / B := by
  calc num / den = num * B / (den * B) := (Nat.mul_div_mul_right _ _ hB).symm
    _ = A * den / (B * den) := by rw [h, Nat.mul_comm den B]
    _ = A / B := Nat.mul_div_mul_right _ _ hd

/-- Rounding a quotient below `2^53` scaled by `S` and discarding the fraction
gives the floor of the quotient. -/
theorem round_trunc_core (num den A B S : Nat) (hd : 0 < den) (hB : 0 < B) (hS : 0 < S)
    (h : num * B = A * den) (hA : A < 2 ^ 53) (h1 : den * 2 ^ 52 ≤ num * S) :
    roundHalfEven (num * S) den / S = A / B := by
  have hk : num / den = A / B := div_eq_of_cross num den A B hd hB h
  set k := A / B with hkdef
  have hk1 : k * den ≤ num := by rw [← hk]; exact Nat.div_mul_le_self _ _
  have hk2 : num < (k + 1) * den := by
    rw [← hk, Nat.mul_comm]
    exact Nat.lt_mul_div_succ _ hd
  have hkA : A < (k + 1) * B := by
    rw [hkdef, Nat.mul_comm]
    exact Nat.lt_mul_div_succ _ hB
  set d := num * S / den with hddef
  have hd1 : k * S ≤ d := by
    rw [hddef, Nat.le_div_iff_mul_le hd]
    calc k * S * den = k * den * S := by ring
      _ ≤ num * S := Nat.mul_le_mul_right _ hk1
  have hd2 : d < (k + 1) * S := by
    rw [hddef, Nat.div_lt_iff_lt_mul hd]
    calc num * S < (k + 1) * den * S := Nat.mul_lt_mul_of_pos_right hk2 hS
      _ = (k + 1) * S * den := by ring
  have hge := roundHalfEven_ge (num * S) den
  have hlt : roundHalfEven (num * S) den < (k + 1) * S := by
    by_cases hup : roundHalfEven (num * S) den = num * S / den
    · rw [hup]; exact hd2
    · obtain ⟨hm, hr⟩ := roundHalfEven_up _ _ hup
      rw [hm]
      by_contra hcon
      have hd3 : d + 1 = (k + 1) * S := by omega
      have hdm := Nat.div_add_mod (num * S) den
      rw [← hddef] at hdm
      have e1 : 2 * (k + 1) * S * den ≤ 2 * (num * S) + den := by
        have : 2 * (k + 1) * S * den = 2 * (den * d) + 2 * den := by
          rw [Nat.mul_assoc 2 (k + 1) S, ← hd3]; ring
        omega
      have e2 : 2 * (k + 1) * S * den * B ≤ (2 * (num * S) + den) * B :=
        Nat.mul_le_mul_right _ e1
      have e3 : (2 * (num * S) + den) * B = (2 * A * S + B) * den := by
        calc (2 * (num * S) + den) * B = 2 * S * (num * B) + den * B := by ring
          _ = 2 * S * (A * den) + den * B := by rw [h]
          _ = (2 * A * S + B) * den := by ring
      have e4 : 2 * (k + 1) * S * den * B = (2 * (k + 1) * B * S) * den := by ring
      rw [e3, e4] at e2
      have e5 : 2 * (k + 1) * B * S ≤ 2 * A * S + B := Nat.le_of_mul_le_mul_right e2 hd
      have e6 : 2 * (A + 1) * S ≤ 2 * (k + 1) * B * S := by
        have : A + 1 ≤ (k + 1) * B := hkA
        calc 2 * (A + 1) * S ≤ 2 * ((k + 1) * B) * S := by
              apply Nat.mul_le_mul_right
              exact Nat.mul_le_mul_left _ this
          _ = 2 * (k + 1) * B * S := by ring
      have e7 : 2 * S ≤ B := by
        have : 2 * (A + 1) * S = 2 * A * S + 2 * S := by ring
        omega
      have e8 : den * 2 ^ 52 * B ≤ num * S * B := Nat.mul_le_mul_right _ h1
      have e9 : num * S * B = A * S * den := by
        calc num * S * B = num * B * S := by ring
          _ = A * den * S := by rw [h]
          _ = A * S * den := by ring
      have e10 : den * 2 ^ 52 * B = B * 2 ^ 52 * den := by ring
      rw [e9, e10] at e8
      have e11 : B * 2 ^ 52 ≤ A * S := Nat.le_of_mul_le_mul_right e8 hd
      have e12 : A * S < 2 ^ 53 * S := Nat.mul_lt_mul_of_pos_right hA hS
      have e13 : 2 * S * 2 ^ 52 ≤ B * 2 ^ 52 := Nat.mul_le_mul_right _ e7
      have e14 : 2 * S * 2 ^ 52 = 2 ^ 53 * S := by ring
      omega
  apply Nat.div_eq_of_lt_le
  · calc k * S ≤ d := hd1
      _ ≤ _ := hge
  · exact hlt

/-- The truncation of the `float64` nearest to a quotient `A / B` with
`A < 2^53` is the floor of the quotient. -/
theorem roundToF64_truncMag (neg : Bool) (num den A B : Nat) (hn : 0 < num) (hd : 0 < den)
    (hB : 0 < B) (h : num * B = A * den) (hA : A < 2 ^ 53) :
    (roundToF64 neg num den).truncMag = A / B := by
  obtain ⟨_, hm, h1, h2⟩ := roundToF64_spec neg num den hn hd
  unfold F64.truncMag
  generalize (roundToF64 neg num den).up = up at *
  generalize (roundToF64 neg num den).down = down at *
  generalize (roundToF64 neg num den).mant = m at *
  subst hm
  by_cases hle : up ≤ down
  · obtain ⟨s, rfl⟩ : ∃ s, down = up + s := ⟨down - up, by omega⟩
    have hp : 0 < 2 ^ up := Nat.two_pow_pos _
    have e1 : num * 2 ^ (up + s) = num * 2 ^ s * 2 ^ up := by rw [pow_add]; ring
    have e2 : (2 : Nat) ^ (up + s) = 2 ^ s * 2 ^ up := by rw [pow_add]; ring
    rw [e1] at h1
    rw [e1, roundHalfEven_scale _ _ _ hp, e2, Nat.mul_div_mul_right _ _ hp]
    apply round_trunc_core num den A B (2 ^ s) hd hB (Nat.two_pow_pos _) h hA
    have : den * 2 ^ 52 * 2 ^ up ≤ num * 2 ^ s * 2 ^ up := by
      calc den * 2 ^ 52 * 2 ^ up = den * 2 ^ up * 2 ^ 52 := by ring
        _ ≤ _ := h1
    exact Nat.le_of_mul_le_mul_right this hp
  · exfalso
    obtain ⟨s, rfl⟩ : ∃ s, up = down + (s + 1) := ⟨up - down - 1, by omega⟩
    have hp : 0 < 2 ^ down := Nat.two_pow_pos _
    have e1 : den * 2 ^ (down + (s + 1)) * 2 ^ 52 = den * 2 ^ s * 2 ^ 53 * 2 ^ down := by
      rw [pow_add, pow_succ]; ring
    rw [e1] at h1
    have h3 : den * 2 ^ s * 2 ^ 53 ≤ num := Nat.le_of_mul_le_mul_right h1 hp
    have h4 : den * 2 ^ s * 2 ^ 53 * B ≤ num * B := Nat.mul_le_mul_right _ h3
    rw [h] at h4
    have e2 : den * 2 ^ s * 2 ^ 53 * B = 2 ^ s * 2 ^ 53 * B * den := by ring
    rw [e2] at h4
    have h5 : 2 ^ s * 2 ^ 53 * B ≤ A := Nat.le_of_mul_le_mul_right h4 hd
    have h6 : 1 ≤ 2 ^ s := Nat.two_pow_pos _
    have h7 : 1 * 2 ^ 53 * 1 ≤ 2 ^ s * 2 ^ 53 * B :=
      Nat.mul_le_mul (Nat.mul_le_mul_right _ h6) hB
    omega

/-- Rounding zero gives zero. -/
theorem roundToF64_zero (neg : Bool) (den : Nat) :
    roundToF64 neg 0 den = { neg := neg, mant := 0, up := 0, down := 0 } := by
  simp [roundToF64]

/-- The `float64` of a positive integer `n` is an integer `v`: `n` itself below
`2^53`, and at least `2^53` otherwise. -/
theorem float64OfNat_value (neg : Bool) (n : Nat) (hn : 0 < n) :
    ∃ v, (roundToF64 neg n 1).mant * 2 ^ (roundToF64 neg n 1).up =
        v * 2 ^ (roundToF64 neg n 1).down ∧
      (n < 2 ^ 53 → v = n) ∧ (2 ^ 53 ≤ n → 2 ^ 53 ≤ v) ∧ 0 < v ∧
      (roundToF64 neg n 1).mant ≠ 0 ∧ (roundToF64 neg n 1).neg = neg := by
  obtain ⟨hneg, hm, h1, h2⟩ := roundToF64_spec neg n 1 hn (by norm_num)
  obtain ⟨hm1, hm2⟩ := mant_bounds n 1 _ _ (by norm_num) h1 h2
  rw [← hm] at hm1 hm2
  generalize (roundToF64 neg n 1).up = up at *
  generalize (roundToF64 neg n 1).down = down at *
  generalize (roundToF64 neg n 1).mant = m at *
  generalize (roundToF64 neg n 1).neg = ng at *
  have hm0 : m ≠ 0 := by
    have : 0 < 2 ^ 52 := Nat.two_pow_pos _
    omega
  simp only [Nat.one_mul] at hm h1 h2
  by_cases hle : up ≤ down
  · obtain ⟨s, rfl⟩ : ∃ s, down = up + s := ⟨down - up, by omega⟩
    have hp : 0 < 2 ^ up := Nat.two_pow_pos _
    have e1 : n * 2 ^ (up + s) = n * 2 ^ s * 2 ^ up := by rw [pow_add]; ring
    have hmv : m = n * 2 ^ s := by
      rw [hm, e1, roundHalfEven_exact _ _ hp (Nat.mul_mod_left _ _), Nat.mul_div_cancel _ hp]
    refine ⟨n, ?_, fun _ => rfl, fun h => h, hn, hm0, hneg⟩
    rw [hmv, e1]
  · obtain ⟨s, rfl⟩ : ∃ s, up = down + (s + 1) := ⟨up - down - 1, by omega⟩
    have hs : 2 ≤ 2 ^ (s + 1) := by
      rw [pow_succ]
      have : 1 ≤ 2 ^ s := Nat.two_pow_pos _
      omega
    have hv : 2 ^ 53 ≤ m * 2 ^ (s + 1) := by
      calc 2 ^ 53 = 2 ^ 52 * 2 := by norm_num
        _ ≤ m * 2 ^ (s + 1) := Nat.mul_le_mul hm1 hs
    have hp : 0 < 2 ^ down := Nat.two_pow_pos _
    have hbig : 2 ^ 53 ≤ n := by
      have e1 : 2 ^ (down + (s + 1)) * 2 ^ 52 = 2 ^ s * 2 ^ 53 * 2 ^ down := by
        rw [pow_add, pow_succ]; ring
      rw [e1] at h1
      have h3 : 2 ^ s * 2 ^ 53 ≤ n := Nat.le_of_mul_le_mul_right h1 hp
      have : 1 * 2 ^ 53 ≤ 2 ^ s * 2 ^ 53 := Nat.mul_le_mul_right _ (Nat.two_pow_pos _)
      omega
    refine ⟨m * 2 ^ (s + 1), ?_, fun h => by omega, fun _ => hv, by omega, hm0, hneg⟩
    rw [pow_add]
    ring

/-- A rounded quotient does not exceed a power of two above the quotient. -/
theorem roundToF64_le_pow (neg : Bool) (num den k : Nat) (hn : 0 < num) (hd : 0 < den)
    (h : num ≤ den * 2 ^ k) :
    (roundToF64 neg num den).mant * 2 ^ (roundToF64 neg num den).up ≤
      2 ^ k * 2 ^ (roundToF64 neg num den).down := by
  obtain ⟨_, hm, h1, h2⟩ := roundToF64_spec neg num den hn hd
  obtain ⟨hm1, hm2⟩ := mant_bounds num den _ _ hd h1 h2
  rw [← hm] at hm1 hm2
  generalize (roundToF64 neg num den).up = up at *
  generalize (roundToF64 neg num den).down = down at *
  generalize (roundToF64 neg num den).mant = m at *
  have h3 : den * 2 ^ (up + 52) ≤ den * 2 ^ (k + down) := by
    calc den * 2 ^ (up + 52) = den * 2 ^ up * 2 ^ 52 := by rw [pow_add]; ring
      _ ≤ num * 2 ^ down := h1
      _ ≤ den * 2 ^ k * 2 ^ down := Nat.mul_le_mul_right _ h
      _ = den * 2 ^ (k + down) := by rw [pow_add]; ring
  have h4 : up + 52 ≤ k + down :=
    (Nat.pow_le_pow_iff_right (by norm_num)).mp (Nat.le_of_mul_le_mul_left h3 hd)
  by_cases hlt : up + 52 < k + down
  · calc m * 2 ^ up ≤ 2 ^ 53 * 2 ^ up := Nat.mul_le_mul_right _ hm2
      _ = 2 ^ (up + 53) := by rw [pow_add]; ring
      _ ≤ 2 ^ (k + down) := Nat.pow_le_pow_right (by norm_num) (by omega)
      _ = 2 ^ k * 2 ^ down := by rw [pow_add]
  · have heq : up + 52 = k + down := by omega
    have hD : 0 < den * 2 ^ up := Nat.mul_pos hd (Nat.two_pow_pos _)
    have hN : num * 2 ^ down = 2 ^ 52 * (den * 2 ^ up) := by
      apply Nat.le_antisymm
      · calc num * 2 ^ down ≤ den * 2 ^ k * 2 ^ down := Nat.mul_le_mul_right _ h
          _ = den * 2 ^ (k + down) := by rw [pow_add]; ring
          _ = den * 2 ^ (up + 52) := by rw [heq]
          _ = 2 ^ 52 * (den * 2 ^ up) := by rw [pow_add]; ring
      · calc 2 ^ 52 * (den * 2 ^ up) = den * 2 ^ up * 2 ^ 52 := by ring
          _ ≤ num * 2 ^ down := h1
    have hmv : m = 2 ^ 52 := by
      rw [hm, hN, roundHalfEven_exact _ _ hD (Nat.mul_mod_left _ _), Nat.mul_div_cancel _ hD]
    rw [hmv, ← pow_add, ← pow_add]
    exact Nat.pow_le_pow_right (by norm_num) (by omega)

/-- A rounded quotient is not below a power of two below the quotient. -/
theorem roundToF64_ge_pow (neg : Bool) (num den k : Nat) (hn : 0 < num) (hd : 0 < den)
    (h : den * 2 ^ k ≤ num) :
    2 ^ k * 2 ^ (roundToF64 neg num den).down ≤
      (roundToF64 neg num den).mant * 2 ^ (roundToF64 neg num den).up := by
  obtain ⟨_, hm, h1, h2⟩ := roundToF64_spec neg num den hn hd
  obtain ⟨hm1, hm2⟩ := mant_bounds num den _ _ hd h1 h2
  rw [← hm] at hm1 hm2
  generalize (roundToF64 neg num den).up = up at *
  generalize (roundToF64 neg num den).down = down at *
  generalize (roundToF64 neg num den).mant = m at *
  have h3 : den * 2 ^ (k + down) < den * 2 ^ (up + 53) := by
    calc den * 2 ^ (k + down) = den * 2 ^ k * 2 ^ down := by rw [pow_add]; ring
      _ ≤ num * 2 ^ down := Nat.mul_le_mul_right _ h
      _ < den * 2 ^ up * 2 ^ 53 := h2
      _ = den * 2 ^ (up + 53) := by rw [pow_add]; ring
  have h4 : k + down < up + 53 :=
    (Nat.pow_lt_pow_iff_right (by norm_num)).mp (Nat.lt_of_mul_lt_mul_left h3)
  calc 2 ^ k * 2 ^ down = 2 ^ (k + down) := by rw [pow_add]
    _ ≤ 2 ^ (up + 52) := Nat.pow_le_pow_right (by norm_num) (by omega)
    _ = 2 ^ 52 * 2 ^ up := by rw [pow_add]; ring
    _ ≤ m * 2 ^ up := Nat.mul_le_mul_right _ hm1

/-- Rounding a value that already has a 53-bit significand `M` returns that
value. -/
theorem roundToF64_exact (neg : Bool) (num den M i j : Nat) (hn : 0 < num) (hd : 0 < den)
    (hM1 : 2 ^ 52 ≤ M) (hM2 : M < 2 ^ 53) (h : num * 2 ^ j = M * den * 2 ^ i) :
    (roundToF64 neg num den).mant * 2 ^ (roundToF64 neg num den).up * 2 ^ j =
      M * 2 ^ i * 2 ^ (roundToF64 neg num den).down := by
  obtain ⟨_, hm, h1, h2⟩ := roundToF64_spec neg num den hn hd
  generalize (roundToF64 neg num den).up = up at *
  generalize (roundToF64 neg num den).down = down at *
  generalize (roundToF64 neg num den).mant = m at *
  have hj : 0 < 2 ^ j := Nat.two_pow_pos _
  have hkey : num * 2 ^ down * 2 ^ j = den * (M * 2 ^ (i + down)) := by
    calc num * 2 ^ down * 2 ^ j = num * 2 ^ j * 2 ^ down := by ring
      _ = M * den * 2 ^ i * 2 ^ down := by rw [h]
      _ = den * (M * 2 ^ (i + down)) := by rw [pow_add]; ring
  have a1 : den * 2 ^ (up + 52 + j) ≤ den * (M * 2 ^ (i + down)) := by
    calc den * 2 ^ (up + 52 + j) = den * 2 ^ up * 2 ^ 52 * 2 ^ j := by
          rw [pow_add, pow_add]; ring
      _ ≤ num * 2 ^ down * 2 ^ j := Nat.mul_le_mul_right _ h1
      _ = _ := hkey
  have a2 : den * (M * 2 ^ (i + down)) < den * 2 ^ (up + 53 + j) := by
    calc den * (M * 2 ^ (i + down)) = num * 2 ^ down * 2 ^ j := hkey.symm
      _ < den * 2 ^ up * 2 ^ 53 * 2 ^ j := Nat.mul_lt_mul_of_pos_right h2 hj
      _ = den * 2 ^ (up + 53 + j) := by rw [pow_add, pow_add]; ring
  have b1 : 2 ^ (up + 52 + j) < 2 ^ (53 + (i + down)) := by
    calc 2 ^ (up + 52 + j) ≤ M * 2 ^ (i + down) := Nat.le_of_mul_le_mul_left a1 hd
      _ < 2 ^ 53 * 2 ^ (i + down) := Nat.mul_lt_mul_of_pos_right hM2 (Nat.two_pow_pos _)
      _ = 2 ^ (53 + (i + down)) := by rw [← pow_add]
  have b2 : 2 ^ (52 + (i + down)) < 2 ^ (up + 53 + j) := by
    calc 2 ^ (52 + (i + down)) = 2 ^ 52 * 2 ^ (i + down) := by rw [← pow_add]
      _ ≤ M * 2 ^ (i + down) := Nat.mul_le_mul_right _ hM1
      _ < 2 ^ (up + 53 + j) := Nat.lt_of_mul_lt_mul_left a2
  have c1 := (Nat.pow_lt_pow_iff_right (by norm_num : 1 < 2)).mp b1
  have c2 := (Nat.pow_lt_pow_iff_right (by norm_num : 1 < 2)).mp b2
  have heq : i + down = up + j := by omega
  have hD : 0 < den * 2 ^ up := Nat.mul_pos hd (Nat.two_pow_pos _)
  have hN : num * 2 ^ down = M * (den * 2 ^ up) := by
    apply Nat.eq_of_mul_eq_mul_right hj
    rw [hkey, heq, pow_add]
    ring
  have hmv : m = M := by
    rw [hm, hN, roundHalfEven_exact _ _ hD (Nat.mul_mod_left _ _), Nat.mul_div_cancel _ hD]
  rw [hmv]
  calc M * 2 ^ up * 2 ^ j = M * 2 ^ (up + j) := by rw [pow_add]; ring
    _ = M * 2 ^ (i + down) := by rw [heq]
    _ = M * 2 ^ i * 2 ^ down := by rw [pow_add]; ring

/-! ## MeanDuration (C4, C5, C9) -/

/-- Wrapping is the identity on `int64` values. -/
theorem wrap64_of_range (z : Int) (h1 : -2 ^ 63 ≤ z) (h2 : z < 2 ^ 63) : wrap64 z = z := by
  unfold wrap64
  omega

/-- Wrapping an intermediate sum does not change the wrapped total. -/
theorem wrap64_add_wrap64 (x y : Int) : wrap64 (wrap64 x + y) = wrap64 (x + y) := by
  unfold wrap64
  omega

/-- The summing loop computes the wrapped sum. -/
theorem sumDurations_eq (ds : List Int) (acc : Int) :
    wrap64 (sumDurations acc ds) = wrap64 (acc + ds.sum) := by
  induction ds generalizing acc with
  | nil => simp [sumDurations]
  | cons d rest ih =>
    simp only [sumDurations, List.sum_cons]
    rw [ih, wrap64_add_wrap64, Int.add_assoc]

/-- The summing loop returns an `int64` when it starts from one. -/
theorem sumDurations_range (ds : List Int) (acc : Int)
    (h : -2 ^ 63 ≤ acc ∧ acc < 2 ^ 63) :
    -2 ^ 63 ≤ sumDurations acc ds ∧ sumDurations acc ds < 2 ^ 63 := by
  induction ds generalizing acc with
  | nil => simpa [sumDurations] using h
  | cons d rest ih =>
    simp only [sumDurations]
    apply ih
    unfold wrap64
    omega

/-- The summing loop returns the exact sum when that is an `int64`. -/
theorem sumDurations_exact (ds : List Int) (h1 : -2 ^ 63 ≤ ds.sum) (h2 : ds.sum < 2 ^ 63) :
    sumDurations 0 ds = ds.sum := by
  have hr := sumDurations_range ds 0 (by norm_num)
  have he := sumDurations_eq ds 0
  rw [wrap64_of_range _ hr.1 hr.2, Int.zero_add, wrap64_of_range _ h1 h2] at he
  exact he

/-- The conversion to `int64` of a `float64` of magnitude below `2^63`. -/
theorem float64ToInt64_of_lt (x : F64) (h : x.truncMag < 2 ^ 63) :
    float64ToInt64 x = some (if x.neg then -(x.truncMag : Int) else (x.truncMag : Int)) := by
  unfold float64ToInt64 F64.truncMag at *
  simp only
  have h3 : ((x.mant * 2 ^ x.up / 2 ^ x.down : Nat) : Int) < 9223372036854775808 := by
    exact_mod_cast h
  have h4 : (0 : Int) ≤ ((x.mant * 2 ^ x.up / 2 ^ x.down : Nat) : Int) := Int.ofNat_nonneg _
  generalize ((x.mant * 2 ^ x.up / 2 ^ x.down : Nat) : Int) = mag at *
  rw [if_pos]
  norm_num
  split <;> constructor <;> omega

/-- Truncated division of an integer by a natural number, by sign and
magnitude. -/
theorem tdiv_natAbs (z : Int) (n : Nat) :
    Int.tdiv z (n : Int) =
      if z < 0 then -((z.natAbs / n : Nat) : Int) else ((z.natAbs / n : Nat) : Int) := by
  cases z with
  | ofNat a =>
    have : ¬ (Int.ofNat a < 0) := by simp
    simp only [this, if_false]
    rfl
  | negSucc a =>
    have : Int.negSucc a < 0 := Int.negSucc_lt_zero a
    simp only [this, if_true]
    rfl

/-- The quotient `MeanDuration` forms for a sum of magnitude below `2^53`,
truncated: the floor of the exact quotient of the magnitudes. -/
theorem quotient_truncMag (ng : Bool) (a n : Nat) (ha : 0 < a) (ha2 : a < 2 ^ 53) (hn : 0 < n) :
    ∃ q, float64Div (roundToF64 ng a 1) (roundToF64 false n 1) = some q ∧
      q.truncMag = a / n ∧ q.neg = ng := by
  obtain ⟨v, hv, hsmall, hbig, hvpos, hmant, hnegY⟩ := float64OfNat_value false n hn
  obtain ⟨va, hva, hsm, _, _, _, hnegX⟩ := float64OfNat_value ng a ha
  have hvae : va = a := hsm ha2
  subst hvae
  generalize roundToF64 ng va 1 = X at *
  generalize roundToF64 false n 1 = Y at *
  refine ⟨roundToF64 (X.neg != Y.neg) (X.mant * 2 ^ X.up * 2 ^ Y.down)
    (Y.mant * 2 ^ Y.up * 2 ^ X.down), ?_, ?_, ?_⟩
  · simp [float64Div, hmant]
  · have hnum : 0 < X.mant * 2 ^ X.up * 2 ^ Y.down := by
      rw [hva]
      exact Nat.mul_pos (Nat.mul_pos ha (Nat.two_pow_pos _)) (Nat.two_pow_pos _)
    have hden : 0 < Y.mant * 2 ^ Y.up * 2 ^ X.down := by
      rw [hv]
      exact Nat.mul_pos (Nat.mul_pos hvpos (Nat.two_pow_pos _)) (Nat.two_pow_pos _)
    have hcross : X.mant * 2 ^ X.up * 2 ^ Y.down * v = va * (Y.mant * 2 ^ Y.up * 2 ^ X.down) := by
      rw [hva, hv]; ring
    rw [roundToF64_truncMag _ _ _ va v hnum hden hvpos hcross ha2]
    by_cases hnb : n < 2 ^ 53
    · rw [hsmall hnb]
    · have hv2 := hbig (by omega)
      rw [Nat.div_eq_of_lt (by omega), Nat.div_eq_of_lt (by omega)]
  · have hnum : 0 < X.mant * 2 ^ X.up * 2 ^ Y.down := by
      rw [hva]
      exact Nat.mul_pos (Nat.mul_pos ha (Nat.two_pow_pos _)) (Nat.two_pow_pos _)
    have hden : 0 < Y.mant * 2 ^ Y.up * 2 ^ X.down := by
      rw [hv]
      exact Nat.mul_pos (Nat.mul_pos hvpos (Nat.two_pow_pos _)) (Nat.two_pow_pos _)
    rw [(roundToF64_spec _ _ _ hnum hden).1, hnegX, hnegY]
    simp

/-- C4: `MeanDuration` of the empty list is the sentinel `-1`; no element is
read. -/
theorem MeanDuration_empty : MeanDuration [] = some (-1) := by
  decide

/-- C5 as amended: for every non-empty list of durations whose sum is, in
absolute value, below `2^53` nanoseconds, `MeanDuration` returns the sum
divided by the number of elements, truncated toward zero. -/
theorem MeanDuration_mean (ds : List Int) (hne : ds ≠ []) (h1 : -2 ^ 53 < ds.sum)
    (h2 : ds.sum < 2 ^ 53) :
    MeanDuration ds = some (Int.tdiv ds.sum (ds.length : Int)) := by
  have hn : 0 < ds.length := List.length_pos.mpr hne
  norm_num at h1 h2
  have hsum : sumDurations 0 ds = ds.sum :=
    sumDurations_exact ds (by norm_num; omega) (by norm_num; omega)
  unfold MeanDuration
  rw [if_neg (by omega)]
  simp only [hsum]
  have hY : float64OfInt (ds.length : Int) = roundToF64 false ds.length 1 := by
    have : ¬ ((ds.length : Int) < 0) := by omega
    simp [float64OfInt, this]
  rw [hY, tdiv_natAbs]
  generalize ds.length = n at *
  generalize ds.sum = S at *
  by_cases hS : S = 0
  · subst hS
    have hX : float64OfInt 0 = ⟨false, 0, 0, 0⟩ := by rfl
    obtain ⟨_, _, _, _, _, hmant, _⟩ := float64OfNat_value false n hn
    simp [hX, float64Div, hmant, roundToF64_zero, float64ToInt64]
  · have ha : 0 < S.natAbs := Int.natAbs_pos.mpr hS
    have ha2 : S.natAbs < 2 ^ 53 := by norm_num; omega
    obtain ⟨q, hq, hmag, hneg⟩ := quotient_truncMag (decide (S < 0)) S.natAbs n ha ha2 hn
    have hX : float64OfInt S = roundToF64 (decide (S < 0)) S.natAbs 1 := rfl
    rw [hX, hq]
    simp only
    have hlt : q.truncMag < 2 ^ 63 := by
      rw [hmag]
      have : S.natAbs / n ≤ S.natAbs := Nat.div_le_self _ _
      norm_num at ha2 ⊢
      omega
    rw [float64ToInt64_of_lt q hlt, hneg, hmag]
    simp

/-- Witness for C5 as amended: the mean of 7, 8 and 10 nanoseconds is 8. -/
theorem MeanDuration_mean_witness :
    MeanDuration [7, 8, 10] =
      some (Int.tdiv (List.sum [7, 8, 10]) (([7, 8, 10] : List Int).length : Int)) :=
  MeanDuration_mean [7, 8, 10] (by decide) (by decide) (by decide)

set_option maxRecDepth 100000 in
/-- C5 fails at a single duration of `2^53 + 1` nanoseconds: the mean is the
duration itself, `MeanDuration` returns `2^53`. -/
theorem MeanDuration_mean_counterexample :
    MeanDuration [9007199254740993] = some 9007199254740992 ∧
      Int.tdiv (List.sum [9007199254740993])
        (([9007199254740993] : List Int).length : Int) = 9007199254740993 := by
  constructor
  · decide
  · decide

/-- The `float64` of a positive integer below `2^63 - 512` is at most
`2^63 - 1024`, the largest `float64` below `2^63`. -/
theorem float64OfNat_le (a : Nat) (ha : 0 < a) (ha2 : a < 2 ^ 63 - 512) :
    (roundToF64 false a 1).mant * 2 ^ (roundToF64 false a 1).up ≤
      (2 ^ 63 - 1024) * 2 ^ (roundToF64 false a 1).down := by
  by_cases hsmall : a ≤ 2 ^ 62
  · have h := roundToF64_le_pow false a 1 62 ha (by norm_num) (by omega)
    calc _ ≤ 2 ^ 62 * 2 ^ (roundToF64 false a 1).down := h
      _ ≤ (2 ^ 63 - 1024) * 2 ^ (roundToF64 false a 1).down :=
        Nat.mul_le_mul_right _ (by norm_num)
  · obtain ⟨_, hm, h1, h2⟩ := roundToF64_spec false a 1 ha (by norm_num)
    generalize (roundToF64 false a 1).up = up at *
    generalize (roundToF64 false a 1).down = down at *
    generalize (roundToF64 false a 1).mant = m at *
    simp only [Nat.one_mul] at hm h1 h2
    have hp : 0 < 2 ^ down := Nat.two_pow_pos _
    have b1 : 2 ^ (up + 52) < 2 ^ (63 + down) := by
      calc 2 ^ (up + 52) = 2 ^ up * 2 ^ 52 := by rw [pow_add]
        _ ≤ a * 2 ^ down := h1
        _ < 2 ^ 63 * 2 ^ down := Nat.mul_lt_mul_of_pos_right (by omega) hp
        _ = 2 ^ (63 + down) := by rw [← pow_add]
    have b2 : 2 ^ (62 + down) < 2 ^ (up + 53) := by
      calc 2 ^ (62 + down) = 2 ^ 62 * 2 ^ down := by rw [pow_add]
        _ ≤ a * 2 ^ down := Nat.mul_le_mul_right _ (by omega)
        _ < 2 ^ up * 2 ^ 53 := h2
        _ = 2 ^ (up + 53) := by rw [← pow_add]
    have c1 := (Nat.pow_lt_pow_iff_right (by norm_num : 1 < 2)).mp b1
    have c2 := (Nat.pow_lt_pow_iff_right (by norm_num : 1 < 2)).mp b2
    have hup : up = down + 10 := by omega
    subst hup
    have e1 : (2 : Nat) ^ (down + 10) = 1024 * 2 ^ down := by rw [pow_add]; ring
    have hmv : m = roundHalfEven a 1024 := by
      rw [hm, e1, roundHalfEven_scale _ _ _ hp]
    have hmle : m ≤ 2 ^ 53 - 1 := by
      rw [hmv]
      unfold roundHalfEven
      simp only
      norm_num at ha2 ⊢
      split_ifs <;> omega
    calc m * 2 ^ (down + 10) = m * 1024 * 2 ^ down := by rw [e1]; ring
      _ ≤ (2 ^ 53 - 1) * 1024 * 2 ^ down := by
        apply Nat.mul_le_mul_right
        exact Nat.mul_le_mul_right _ hmle
      _ = (2 ^ 63 - 1024) * 2 ^ down := by norm_num

/-- The quotient `MeanDuration` forms for a positive sum below `2^63 - 512`,
truncated, is below `2^63`. -/
theorem quotient_lt (a n : Nat) (ha : 0 < a) (ha2 : a < 2 ^ 63 - 512) (hn : 0 < n) :
    ∃ q, float64Div (roundToF64 false a 1) (roundToF64 false n 1) = some q ∧
      q.truncMag < 2 ^ 63 ∧ q.neg = false := by
  have hXle := float64OfNat_le a ha ha2
  obtain ⟨_, hXm, hX1, hX2⟩ := roundToF64_spec false a 1 ha (by norm_num)
  obtain ⟨hXm1, hXm2⟩ := mant_bounds a 1 _ _ (by norm_num) hX1 hX2
  rw [← hXm] at hXm1 hXm2
  have hXneg : (roundToF64 false a 1).neg = false :=
    (roundToF64_spec false a 1 ha (by norm_num)).1
  clear hXm hX1 hX2
  obtain ⟨v, hv, _, _, hvpos, hmant, hnegY⟩ := float64OfNat_value false n hn
  have hYge := roundToF64_ge_pow false n 1 0 hn (by norm_num) (by omega)
  have hY2 : 2 ≤ n → 2 ^ 1 * 2 ^ (roundToF64 false n 1).down ≤
      (roundToF64 false n 1).mant * 2 ^ (roundToF64 false n 1).up := fun h2 =>
    roundToF64_ge_pow false n 1 1 hn (by norm_num) (by omega)
  have hY1 : n = 1 → roundToF64 false n 1 = ⟨false, 2 ^ 52, 0, 52⟩ := by
    intro h1
    subst h1
    decide
  generalize roundToF64 false a 1 = X at *
  generalize roundToF64 false n 1 = Y at *
  have hXpos : 0 < X.mant := by
    have : 0 < 2 ^ 52 := Nat.two_pow_pos _
    omega
  have hYpos : 0 < Y.mant := by omega
  have hnum : 0 < X.mant * 2 ^ X.up * 2 ^ Y.down :=
    Nat.mul_pos (Nat.mul_pos hXpos (Nat.two_pow_pos _)) (Nat.two_pow_pos _)
  have hden : 0 < Y.mant * 2 ^ Y.up * 2 ^ X.down :=
    Nat.mul_pos (Nat.mul_pos hYpos (Nat.two_pow_pos _)) (Nat.two_pow_pos _)
  refine ⟨roundToF64 (X.neg != Y.neg) (X.mant * 2 ^ X.up * 2 ^ Y.down)
    (Y.mant * 2 ^ Y.up * 2 ^ X.down), ?_, ?_, ?_⟩
  · simp [float64Div, hmant]
  · -- the quotient is at most 2^62, or the divisor is one
    have hcase : X.mant * 2 ^ X.up * 2 ^ Y.down ≤ Y.mant * 2 ^ Y.up * 2 ^ X.down * 2 ^ 62 ∨
        (n = 1 ∧ X.mant < 2 ^ 53) := by
      by_cases h62 : X.mant * 2 ^ X.up ≤ 2 ^ 62 * 2 ^ X.down
      · left
        calc X.mant * 2 ^ X.up * 2 ^ Y.down ≤ 2 ^ 62 * 2 ^ X.down * 2 ^ Y.down :=
              Nat.mul_le_mul_right _ h62
          _ = 2 ^ 0 * 2 ^ Y.down * (2 ^ X.down * 2 ^ 62) := by ring
          _ ≤ Y.mant * 2 ^ Y.up * (2 ^ X.down * 2 ^ 62) := Nat.mul_le_mul_right _ hYge
          _ = Y.mant * 2 ^ Y.up * 2 ^ X.down * 2 ^ 62 := by ring
      · by_cases hn2 : 2 ≤ n
        · left
          have hle63 : X.mant * 2 ^ X.up ≤ 2 ^ 63 * 2 ^ X.down :=
            Nat.le_trans hXle (Nat.mul_le_mul_right _ (by norm_num))
          calc X.mant * 2 ^ X.up * 2 ^ Y.down ≤ 2 ^ 63 * 2 ^ X.down * 2 ^ Y.down :=
                Nat.mul_le_mul_right _ hle63
            _ = 2 ^ 1 * 2 ^ Y.down * (2 ^ X.down * 2 ^ 62) := by ring
            _ ≤ Y.mant * 2 ^ Y.up * (2 ^ X.down * 2 ^ 62) := Nat.mul_le_mul_right _ (hY2 hn2)
            _ = Y.mant * 2 ^ Y.up * 2 ^ X.down * 2 ^ 62 := by ring
        · right
          refine ⟨by omega, ?_⟩
          by_contra hM
          have hM53 : X.mant = 2 ^ 53 := by omega
          rw [hM53] at h62 hXle
          have b1 : 2 ^ (62 + X.down) < 2 ^ (53 + X.up) := by
            rw [pow_add, pow_add]; omega
          have b2 : 2 ^ (53 + X.up) < 2 ^ (63 + X.down) := by
            calc 2 ^ (53 + X.up) = 2 ^ 53 * 2 ^ X.up := by rw [pow_add]
              _ ≤ (2 ^ 63 - 1024) * 2 ^ X.down := hXle
              _ < 2 ^ 63 * 2 ^ X.down :=
                Nat.mul_lt_mul_of_pos_right (by norm_num) (Nat.two_pow_pos _)
              _ = 2 ^ (63 + X.down) := by rw [pow_add]
          have c1 := (Nat.pow_lt_pow_iff_right (by norm_num : 1 < 2)).mp b1
          have c2 := (Nat.pow_lt_pow_iff_right (by norm_num : 1 < 2)).mp b2
          omega
    rcases hcase with hq | ⟨hn1, hM⟩
    · have h := roundToF64_le_pow (X.neg != Y.neg) _ _ 62 hnum hden hq
      unfold F64.truncMag
      have : (roundToF64 (X.neg != Y.neg) (X.mant * 2 ^ X.up * 2 ^ Y.down)
          (Y.mant * 2 ^ Y.up * 2 ^ X.down)).mant *
          2 ^ (roundToF64 (X.neg != Y.neg) (X.mant * 2 ^ X.up * 2 ^ Y.down)
            (Y.mant * 2 ^ Y.up * 2 ^ X.down)).up /
          2 ^ (roundToF64 (X.neg != Y.neg) (X.mant * 2 ^ X.up * 2 ^ Y.down)
            (Y.mant * 2 ^ Y.up * 2 ^ X.down)).down ≤ 2 ^ 62 := by
        apply Nat.div_le_of_le_mul
        calc _ ≤ 2 ^ 62 * 2 ^ _ := h
          _ = _ := Nat.mul_comm _ _
      have : (2 : Nat) ^ 62 < 2 ^ 63 := by norm_num
      omega
    · have hY := hY1 hn1
      subst hY
      simp only at hnum hden ⊢
      have hex := roundToF64_exact (X.neg != false) (X.mant * 2 ^ X.up * 2 ^ 52)
        (2 ^ 52 * 2 ^ 0 * 2 ^ X.down) X.mant X.up X.down hnum hden hXm1 hM (by ring)
      unfold F64.truncMag
      generalize roundToF64 (X.neg != false) (X.mant * 2 ^ X.up * 2 ^ 52)
        (2 ^ 52 * 2 ^ 0 * 2 ^ X.down) = R at *
      have hdiv : R.mant * 2 ^ R.up / 2 ^ R.down = X.mant * 2 ^ X.up / 2 ^ X.down :=
        div_eq_of_cross _ _ _ _ (Nat.two_pow_pos _) (Nat.two_pow_pos _) hex
      rw [hdiv]
      have : X.mant * 2 ^ X.up / 2 ^ X.down ≤ 2 ^ 63 - 1024 := by
        apply Nat.div_le_of_le_mul
        calc _ ≤ (2 ^ 63 - 1024) * 2 ^ X.down := hXle
          _ = _ := Nat.mul_comm _ _
      have : (2 : Nat) ^ 63 - 1024 < 2 ^ 63 := by norm_num
      omega
  · rw [(roundToF64_spec _ _ _ hnum hden).1, hXneg, hnegY]
    rfl

/-- C9 as amended: for every non-empty list of non-negative durations whose
sum is below `2^63 - 512` nanoseconds, `MeanDuration` returns a non-negative
value, so a value different from the sentinel `-1`. -/
theorem MeanDuration_not_sentinel (ds : List Int) (hne : ds ≠ []) (hpos : ∀ d ∈ ds, 0 ≤ d)
    (hsum : ds.sum < 2 ^ 63 - 512) :
    ∃ v : Int, MeanDuration ds = some v ∧ 0 ≤ v ∧ v ≠ -1 := by
  have hn : 0 < ds.length := List.length_pos.mpr hne
  have h0 : 0 ≤ ds.sum := List.sum_nonneg hpos
  norm_num at hsum
  have hs : sumDurations 0 ds = ds.sum :=
    sumDurations_exact ds (by norm_num; omega) (by norm_num; omega)
  unfold MeanDuration
  rw [if_neg (by omega)]
  simp only [hs]
  have hY : float64OfInt (ds.length : Int) = roundToF64 false ds.length 1 := by
    have : ¬ ((ds.length : Int) < 0) := by omega
    simp [float64OfInt, this]
  rw [hY]
  generalize ds.length = n at *
  generalize ds.sum = S at *
  by_cases hS : S = 0
  · subst hS
    have hX : float64OfInt 0 = ⟨false, 0, 0, 0⟩ := by decide
    obtain ⟨_, _, _, _, _, hmant, _⟩ := float64OfNat_value false n hn
    refine ⟨0, ?_, by norm_num, by norm_num⟩
    simp [hX, float64Div, hmant, roundToF64_zero, float64ToInt64]
  · have ha : 0 < S.natAbs := Int.natAbs_pos.mpr hS
    have ha2 : S.natAbs < 2 ^ 63 - 512 := by norm_num; omega
    obtain ⟨q, hq, hlt, hneg⟩ := quotient_lt S.natAbs n ha ha2 hn
    have hX : float64OfInt S = roundToF64 false S.natAbs 1 := by
      have : ¬ (S < 0) := by omega
      simp [float64OfInt, this]
    rw [hX, hq]
    simp only
    rw [float64ToInt64_of_lt q hlt, hneg]
    refine ⟨(q.truncMag : Int), rfl, Int.ofNat_nonneg _, ?_⟩
    have := Int.ofNat_nonneg q.truncMag
    intro hcon
    have hcon1 : (q.truncMag : Int) = -1 := hcon
    omega

/-- Witness for C9 as amended: three non-negative durations. -/
theorem MeanDuration_not_sentinel_witness :
    ∃ v : Int, MeanDuration [0, 3, 4] = some v ∧ 0 ≤ v ∧ v ≠ -1 :=
  MeanDuration_not_sentinel [0, 3, 4] (by decide) (by decide) (by decide)

set_option maxRecDepth 100000 in
/-- C9 fails at two durations of `2^63 - 1` nanoseconds, both non-negative
`int64` values: their `int64` sum wraps to `-2` and `MeanDuration` returns
the sentinel `-1`. -/
theorem MeanDuration_sentinel_counterexample :
    (∀ d ∈ ([9223372036854775807, 9223372036854775807] : List Int), 0 ≤ d ∧ d < 2 ^ 63) ∧
      ([9223372036854775807, 9223372036854775807] : List Int) ≠ [] ∧
      MeanDuration [9223372036854775807, 9223372036854775807] = some (-1) := by
  refine ⟨by decide, by decide, by decide⟩

/-! ## Client construction (C10) -/

/-- Whatever the flags, a client returned by `getClient` has `Timeout` zero. -/
theorem getClient_timeout_zero (readFile : String → Except String (List Nat))
    (keyPair : List Nat → List Nat → Except String (List Nat × List Nat))
    (f : ClientFlags) (c : Client) (h : getClient readFile keyPair f = .ok c) :
    c.Timeout = 0 := by
  unfold getClient at h
  by_cases hc : needsCustomClient f = true
  · rw [if_pos hc] at h
    cases h
    rfl
  · rw [if_neg hc] at h
    have ht : f.timeout = 0 := by
      simp [needsCustomClient] at hc
      exact hc.1
    cases hT : getTransportForClient readFile keyPair f with
    | error e => rw [hT] at h; cases h
    | ok t =>
      rw [hT] at h
      cases h
      exact ht

/-- C10 at `-timeout 5s`: `getClient` returns `http.DefaultClient`, whose
`Timeout` is zero, not the five seconds configured. -/
theorem getClient_drops_timeout (readFile : String → Except String (List Nat))
    (keyPair : List Nat → List Nat → Except String (List Nat × List Nat)) :
    getClient readFile keyPair timeoutFiveSeconds = .ok DefaultClient ∧
      DefaultClient.Timeout = 0 ∧ timeoutFiveSeconds.timeout = 5000000000 := by
  refine ⟨?_, rfl, by decide⟩
  have hc : needsCustomClient timeoutFiveSeconds = true := by decide
  simp [getClient, hc]

end Httpt
